import Mathlib

/-!
Verification of the subtitle normalization core of `streamlit_app.py`
(Universal Subtitle Downloader).

The program's core consists of three pure string functions:

* `vtt_to_srt`    — WebVTT → SRT conversion (header strip, timestamp
                    rewriting via `re.sub(r'\d{1,2}:\d{2}[\.,]\d{3}', fix_timestamp, _)`,
                    re-blocking with 1-based sequence numbers);
* `strip_timestamps` — "clean transcript" extraction (header strip, cue-line
                    removal, `<...>` tag removal, standalone-numeric-line
                    removal, newline collapsing, trim);
* `sanitize_filename` — removal of the characters `\ / * ? : " < > |`.

Everything below is a shallow embedding over `List Char` (a Lean `String`
enters as `.data`).  Python regular-expression passes are embedded as
left-to-right scans that reproduce the exact leftmost-match/backtracking
behaviour of the concrete patterns used by the source; `str.splitlines`,
`str.strip` and f-string number formatting are embedded likewise.  The
models cover the character repertoire actually reachable here (ASCII
whitespace for `strip`; `\n`, `\r\n`, `\r` line boundaries for
`splitlines`); validity predicates used by universally quantified theorems
restrict documents accordingly.
-/

/-- ASCII whitespace as stripped by Python `str.strip()` (the unicode
whitespace code points are not modelled; no input here contains them). -/
def pyIsSpace (c : Char) : Bool :=
  c == ' ' || c == '\t' || c == '\n' || c == '\r' || c == '\x0b' || c == '\x0c'

/-- Python `str.strip()`: drop leading and trailing whitespace. -/
def pyStrip (cs : List Char) : List Char :=
  ((cs.dropWhile pyIsSpace).reverse.dropWhile pyIsSpace).reverse

/-- Python `"\n".join(_)` on a list of lines. -/
def joinNL : List (List Char) → List Char
  | [] => []
  | [l] => l
  | l :: ls => l ++ '\n' :: joinNL ls

/-- Python `pat in s` substring test. -/
def hasSub (pat : List Char) : List Char → Bool
  | [] => pat.isEmpty
  | c :: cs => pat.isPrefixOf (c :: cs) || hasSub pat cs

/-- Truthiness of Python `line.strip()`: the line has a non-whitespace char. -/
def isNonBlank (l : List Char) : Bool := l.any (fun c => !pyIsSpace c)

/-- Helper for splitlines: worker with the current (reversed) line as
accumulator.  A final line is emitted even when empty; a terminator at the
very end of the input produces no empty final line — exactly Python
`str.splitlines()` on `\n` / `\r\n` / `\r` boundaries. -/
def splitLinesGo : List Char → List Char → List (List Char)
  | acc, [] => [acc.reverse]
  | acc, ['\n'] => [acc.reverse]
  | acc, '\n' :: c :: cs => acc.reverse :: splitLinesGo [] (c :: cs)
  | acc, ['\r', '\n'] => [acc.reverse]
  | acc, '\r' :: '\n' :: c :: cs => acc.reverse :: splitLinesGo [] (c :: cs)
  | acc, ['\r'] => [acc.reverse]
  | acc, '\r' :: c :: cs => acc.reverse :: splitLinesGo [] (c :: cs)
  | acc, c :: cs => splitLinesGo (c :: acc) cs

/-- Python `text.splitlines()` (on `\n`, `\r\n`, `\r`; the rarer unicode
boundary characters are excluded from documents by the validity
predicates below). -/
def splitLines : List Char → List (List Char)
  | [] => []
  | c :: cs => splitLinesGo [] (c :: cs)

/-- The decimal digit characters, most significant first, of a natural
number, as produced by Python `f"{block_id}"`.  Fuel-based so that it
evaluates by kernel reduction; `n + 1` units of fuel always suffice. -/
def digitChar (k : Nat) : Char :=
  ['0', '1', '2', '3', '4', '5', '6', '7', '8', '9'].getD k '0'

def natDigitsGo : Nat → Nat → List Char → List Char
  | 0, _, acc => acc
  | fuel + 1, n, acc =>
    if n < 10 then digitChar n :: acc
    else natDigitsGo fuel (n / 10) (digitChar (n % 10) :: acc)

def natToChars (n : Nat) : List Char := natDigitsGo (n + 1) n []

/-! ## `vtt_to_srt` (source lines 131–164) -/

/-- The literal `" --> "` tested by `if ' --> ' in line`. -/
def arrowL : List Char := [' ', '-', '-', '>', ' ']

/-- `[\.,]` of the timestamp patterns. -/
def sepOk (c : Char) : Bool := c == '.' || c == ','

/-- Source `fix_timestamp` (lines 137–141): on the matched text, replace
`.` by `,`; if the field before the first `:` has two characters and there
is exactly one `:`, prepend `"00:"`. -/
def fix_timestamp (m : List Char) : List Char :=
  let ts := m.map (fun c => if c = '.' then ',' else c)
  if (ts.takeWhile (fun c => c ≠ ':')).length == 2 && ts.count ':' == 1 then
    '0' :: '0' :: ':' :: ts
  else ts

/-- `re.sub(r'\d{1,2}:\d{2}[\.,]\d{3}', fix_timestamp, text)` (line 143):
left-to-right scan; at each position the regex first tries the two-digit
form of `\d{1,2}` and then the one-digit form (when both leading chars are
digits the one-digit form can never succeed, since the next char would
have to be `:`), replaces the match via `fix_timestamp`, and resumes after
the match. -/
def subTimestamps : List Char → List Char
  | a :: b :: c :: d :: e :: f :: g :: h :: i :: rest =>
    if a.isDigit && b.isDigit && c == ':' && d.isDigit && e.isDigit && sepOk f
        && g.isDigit && h.isDigit && i.isDigit then
      fix_timestamp [a, b, c, d, e, f, g, h, i] ++ subTimestamps rest
    else if a.isDigit && b == ':' && c.isDigit && d.isDigit && sepOk e
        && f.isDigit && g.isDigit && h.isDigit then
      fix_timestamp [a, b, c, d, e, f, g, h] ++ subTimestamps (i :: rest)
    else
      a :: subTimestamps (b :: c :: d :: e :: f :: g :: h :: i :: rest)
  | a :: b :: c :: d :: e :: f :: g :: h :: [] =>
    if a.isDigit && b == ':' && c.isDigit && d.isDigit && sepOk e
        && f.isDigit && g.isDigit && h.isDigit then
      fix_timestamp [a, b, c, d, e, f, g, h]
    else
      a :: subTimestamps [b, c, d, e, f, g, h]
  | a :: rest => a :: subTimestamps rest
  | [] => []

/-- The single match attempt of the timestamp regex at the head of the
input: `some (matchedText, rest)` or `none`.  Used only for reasoning:
`subTimestamps` performs exactly this attempt at each position. -/
def tryMatch : List Char → Option (List Char × List Char)
  | a :: b :: c :: d :: e :: f :: g :: h :: i :: rest =>
    if a.isDigit && b.isDigit && c == ':' && d.isDigit && e.isDigit && sepOk f
        && g.isDigit && h.isDigit && i.isDigit then
      some ([a, b, c, d, e, f, g, h, i], rest)
    else if a.isDigit && b == ':' && c.isDigit && d.isDigit && sepOk e
        && f.isDigit && g.isDigit && h.isDigit then
      some ([a, b, c, d, e, f, g, h], i :: rest)
    else none
  | a :: b :: c :: d :: e :: f :: g :: h :: [] =>
    if a.isDigit && b == ':' && c.isDigit && d.isDigit && sepOk e
        && f.isDigit && g.isDigit && h.isDigit then
      some ([a, b, c, d, e, f, g, h], [])
    else none
  | _ => none

/-- The characters `WEBVTT`. -/
def webvttL : List Char := ['W', 'E', 'B', 'V', 'T', 'T']

/-- Scan for the first `\n\n`, or failing that at a position `\r\n\r\n`,
and return the suffix after it — the group of
`re.sub(r'^WEBVTT.*?(\n\n|\r\n\r\n)', '', _, flags=re.DOTALL)`. -/
def vttHdrScan : List Char → Option (List Char)
  | [] => none
  | c :: cs =>
    if c = '\n' then
      match cs with
      | '\n' :: cs' => some cs'
      | _ => vttHdrScan cs
    else if c = '\r' then
      match cs with
      | '\n' :: '\r' :: '\n' :: cs' => some cs'
      | _ => vttHdrScan cs
    else vttHdrScan cs

/-- Source line 134: remove the `WEBVTT` header up to and including the
first blank-line pair (anchored at the start; no change when the text does
not begin with `WEBVTT` or has no blank-line pair). -/
def stripHeader (cs : List Char) : List Char :=
  if webvttL.isPrefixOf cs then
    match vttHdrScan (cs.drop 6) with
    | some rest => rest
    | none => cs
  else cs

/-- One SRT block as appended by the source (line 154 / 162):
`f"{block_id}\n" + "\n".join(current_block).strip() + "\n"`. -/
def mkBlock (k : Nat) (cur : List (List Char)) : List Char :=
  natToChars k ++ '\n' :: pyStrip (joinNL cur) ++ ['\n']

/-- The block-building loop of source lines 148–162 over the split lines:
a line containing `" --> "` flushes the current block (if nonempty) and
starts a new one; a non-blank line is appended to the current block; blank
lines are skipped; a nonempty trailing block is flushed at the end. -/
def srtBlocksLoop : List (List Char) → Nat → List (List Char) → List (List Char)
  | [], k, cur => if cur.isEmpty then [] else [mkBlock k cur]
  | l :: ls, k, cur =>
    if hasSub arrowL l then
      if cur.isEmpty then srtBlocksLoop ls k [l]
      else mkBlock k cur :: srtBlocksLoop ls (k + 1) [l]
    else if isNonBlank l then srtBlocksLoop ls k (cur ++ [l])
    else srtBlocksLoop ls k cur

/-- The `srt_blocks` list built by `vtt_to_srt` for a raw input. -/
def srt_blocks (cs : List Char) : List (List Char) :=
  srtBlocksLoop (splitLines (subTimestamps (stripHeader cs))) 1 []

/-- Source `vtt_to_srt` (lines 131–164): header strip, timestamp rewrite,
re-blocking, and final `"\n".join(srt_blocks).strip()`. -/
def vtt_to_srt (cs : List Char) : List Char :=
  pyStrip (joinNL (srt_blocks cs))

/-! ## `sanitize_filename` (lines 127–129) -/

/-- Membership in the character class `[\\/*?:"<>|]`. -/
def badFileChar (c : Char) : Bool :=
  c == '\\' || c == '/' || c == '*' || c == '?' || c == ':' ||
  c == '"' || c == '<' || c == '>' || c == '|'

/-- Source `sanitize_filename`: `re.sub(r'[\\/*?:"<>|]', "", name)` —
scan left to right, deleting every character of the class. -/
def sanitize_filename : List Char → List Char
  | [] => []
  | c :: cs =>
    if badFileChar c then sanitize_filename cs else c :: sanitize_filename cs

/-! ## `strip_timestamps` (lines 166–177) -/

/-- Split at the first occurrence of `pat`: `some (before, after)` where
the input is `before ++ pat ++ after`, or `none`. -/
def findSplit (pat : List Char) : List Char → Option (List Char × List Char)
  | [] => none
  | c :: cs =>
    if pat.isPrefixOf (c :: cs) then some ([], (c :: cs).drop pat.length)
    else
      match findSplit pat cs with
      | some (p, s) => some (c :: p, s)
      | none => none

/-- Line 169: `re.sub(r'WEBVTT[\s\S]*?\n\n', '', text, count=1)` — delete
from the first `WEBVTT` through the first following `\n\n` (no change when
either is absent). -/
def strip_header_clean (cs : List Char) : List Char :=
  match findSplit webvttL cs with
  | none => cs
  | some (pre, post) =>
    match findSplit ['\n', '\n'] post with
    | none => cs
    | some (_, rest) => pre ++ rest

/-- Parse `\d{2}:\d{2}[\.,]\d{3}` (the tail of a full timestamp after its
`\d{1,2}:` head), returning the rest. -/
def tsTail : List Char → Option (List Char)
  | d1 :: d2 :: ':' :: e1 :: e2 :: s :: f1 :: f2 :: f3 :: rest =>
    if d1.isDigit && d2.isDigit && e1.isDigit && e2.isDigit && sepOk s
        && f1.isDigit && f2.isDigit && f3.isDigit then some rest
    else none
  | _ => none

/-- Parse a full `\d{1,2}:\d{2}:\d{2}[\.,]\d{3}` timestamp (greedy
`\d{1,2}`, with the regex's backtracking), returning the rest. -/
def tsFullParse : List Char → Option (List Char)
  | a :: b :: c :: rest =>
    if a.isDigit && b.isDigit then
      if c = ':' then tsTail rest else none
    else if a.isDigit && b = ':' then tsTail (c :: rest)
    else none
  | _ => none

/-- Parse the literal `" --> "`. -/
def arrowParse : List Char → Option (List Char)
  | ' ' :: '-' :: '-' :: '>' :: ' ' :: rest => some rest
  | _ => none

/-- `.*?\n` after the second timestamp: drop through the first `\n`
(`.` does not match `\n`, so the lazy star necessarily stops there);
fail if no `\n` follows. -/
def dropThroughNl : List Char → Option (List Char)
  | [] => none
  | '\n' :: cs => some cs
  | _ :: cs => dropThroughNl cs

/-- One match attempt of the cue-line pattern
`\d{1,2}:\d{2}:\d{2}[\.,]\d{3} --> \d{1,2}:\d{2}:\d{2}[\.,]\d{3}.*?\n`. -/
def tryCueLine (cs : List Char) : Option (List Char) :=
  (((tsFullParse cs).bind arrowParse).bind tsFullParse).bind dropThroughNl

/-- Worker for the cue-line removal pass (fuel = input length suffices:
every match consumes at least one character). -/
def cueLineGo : Nat → List Char → List Char
  | _, [] => []
  | 0, cs => cs
  | fuel + 1, c :: cs =>
    match tryCueLine (c :: cs) with
    | some rest => cueLineGo fuel rest
    | none => c :: cueLineGo fuel cs

/-- Line 171: remove every cue boundary line (both timestamps in the full
`H:MM:SS` form, either fractional separator) together with the rest of
that line including its newline. -/
def cue_line_sub (cs : List Char) : List Char := cueLineGo cs.length cs

/-- Find the first `>` and return the suffix after it. -/
def tagSplit : List Char → Option (List Char)
  | [] => none
  | '>' :: cs => some cs
  | _ :: cs => tagSplit cs

/-- Worker for `re.sub(r'<[^>]*>', '', text)`: a `<` with a later `>` is
removed together with everything between; a `<` with no later `>` stays. -/
def tagGo : Nat → List Char → List Char
  | _, [] => []
  | 0, cs => cs
  | fuel + 1, c :: cs =>
    if c = '<' then
      match tagSplit cs with
      | some rest => tagGo fuel rest
      | none => c :: tagGo fuel cs
    else c :: tagGo fuel cs

/-- Line 173: remove `<...>` markup spans. -/
def tag_sub (cs : List Char) : List Char := tagGo cs.length cs

/-- Suffix of `ws` after its last `\n`. -/
def afterLastNl (ws : List Char) : List Char :=
  (ws.reverse.takeWhile (fun c => c ≠ '\n')).reverse

/-- One match attempt of `^\d+\s*$` (MULTILINE) at a line start: take the
maximal digit run, then the maximal whitespace run; `$` holds at the end
of input (consume everything) or, backtracking, just before the last `\n`
of the whitespace run.  Returns the unconsumed remainder. -/
def dlTry (cs : List Char) : Option (List Char) :=
  let ds := cs.takeWhile Char.isDigit
  if ds.isEmpty then none
  else
    let rest := cs.dropWhile Char.isDigit
    let ws := rest.takeWhile pyIsSpace
    let rest2 := rest.dropWhile pyIsSpace
    if rest2.isEmpty then some []
    else if ws.contains '\n' then some ('\n' :: (afterLastNl ws ++ rest2))
    else none

/-- Worker for the numeric-line removal pass; the flag records whether the
current position is a line start (position 0 or just after `\n`). -/
def dlGo : Nat → Bool → List Char → List Char
  | _, _, [] => []
  | 0, _, cs => cs
  | fuel + 1, atStart, c :: cs =>
    if atStart then
      match dlTry (c :: cs) with
      | some rem => dlGo fuel false rem
      | none => c :: dlGo fuel (c == '\n') cs
    else c :: dlGo fuel (c == '\n') cs

/-- Line 174: `re.sub(r'^\d+\s*$', '', text, flags=re.MULTILINE)`. -/
def digit_line_sub (cs : List Char) : List Char := dlGo cs.length true cs

/-- Line 176: `re.sub(r'\n+', '\n', text)` — collapse newline runs. -/
def nlCollapse : List Char → List Char
  | [] => []
  | '\n' :: '\n' :: cs => nlCollapse ('\n' :: cs)
  | '\n' :: cs => '\n' :: nlCollapse cs
  | c :: cs => c :: nlCollapse cs

/-- Source `strip_timestamps` (lines 166–177): header removal, cue-line
removal, tag removal, numeric-line removal, newline collapsing, trim. -/
def strip_timestamps (cs : List Char) : List Char :=
  pyStrip (nlCollapse (digit_line_sub (tag_sub (cue_line_sub (strip_header_clean cs)))))

/-! ## The document model used by the universally quantified claims

A WebVTT document is embedded as a header region plus an ordered list of
cues; `renderVtt` serializes it.  The validity predicates carve out the
well-formed documents the specification speaks about: two-digit fields as
in the WebVTT grammar, payload lines that are genuine text lines (no line
terminators, not blank, not containing `" --> "`, not containing any
substring the timestamp regex would rewrite, and no leading or trailing
whitespace — the spec's parser trims payloads as a block). -/

/-- A timestamp: WebVTT short form `MM:SS.mmm` or full form `HH:MM:SS.mmm`. -/
inductive Ts where
  | short : Char → Char → Char → Char → Char → Char → Char → Ts
  | full : Char → Char → Char → Char → Char → Char → Char → Char → Char → Ts

def renderTs : Ts → List Char
  | .short m1 m2 s1 s2 f1 f2 f3 => [m1, m2, ':', s1, s2, '.', f1, f2, f3]
  | .full h1 h2 m1 m2 s1 s2 f1 f2 f3 =>
    [h1, h2, ':', m1, m2, ':', s1, s2, '.', f1, f2, f3]

/-- What the converter's timestamp pass actually produces for a rendered
timestamp: the short form gains `00:` and a comma; in the full form the
regex can only match the trailing `MM:SS.mmm`, so `00:` is spliced in
after the hour field. -/
def srtTs : Ts → List Char
  | .short m1 m2 s1 s2 f1 f2 f3 => ['0', '0', ':', m1, m2, ':', s1, s2, ',', f1, f2, f3]
  | .full h1 h2 m1 m2 s1 s2 f1 f2 f3 =>
    [h1, h2, ':', '0', '0', ':', m1, m2, ':', s1, s2, ',', f1, f2, f3]

def validTs : Ts → Bool
  | .short m1 m2 s1 s2 f1 f2 f3 =>
    m1.isDigit && m2.isDigit && s1.isDigit && s2.isDigit
      && f1.isDigit && f2.isDigit && f3.isDigit
  | .full h1 h2 m1 m2 s1 s2 f1 f2 f3 =>
    h1.isDigit && h2.isDigit && m1.isDigit && m2.isDigit && s1.isDigit && s2.isDigit
      && f1.isDigit && f2.isDigit && f3.isDigit

/-- One cue: start/end timestamps and payload lines. -/
structure Cue where
  start : Ts
  stop : Ts
  payload : List (List Char)

/-- Characters on which Python `splitlines` would split, plus `\v`/`\f`
(whitespace for `strip`): excluded from payload and header text. -/
def lineBreakish (c : Char) : Bool :=
  c == '\n' || c == '\r' || c == '\x0b' || c == '\x0c' ||
  c == '\x1c' || c == '\x1d' || c == '\x1e' || c == '\x85' ||
  c == '\u2028' || c == '\u2029'

/-- A well-formed payload line. -/
def lineOk (l : List Char) : Bool :=
  isNonBlank l && !hasSub arrowL l && subTimestamps l == l
    && pyStrip l == l && l.all (fun c => !lineBreakish c)

def validCue (c : Cue) : Bool :=
  validTs c.start && validTs c.stop && c.payload.all lineOk

/-- The lines of one cue as rendered into the WebVTT input. -/
def cueLinesVtt (c : Cue) : List (List Char) :=
  (renderTs c.start ++ arrowL ++ renderTs c.stop) :: c.payload

/-- The lines of one cue after the converter's timestamp pass. -/
def cueLinesSrt (c : Cue) : List (List Char) :=
  (srtTs c.start ++ arrowL ++ srtTs c.stop) :: c.payload

/-- Join line groups with one blank line between consecutive groups. -/
def groupsJoin : List (List (List Char)) → List (List Char)
  | [] => []
  | [g] => g
  | g :: gs => g ++ [] :: groupsJoin gs

structure VttDoc where
  header : List Char
  cues : List Cue

/-- Header text (after the literal `WEBVTT`, before the blank line):
no `\r`, and no `\n\n` even against the terminating blank line. -/
def headerOk (h : List Char) : Bool :=
  h.all (fun c => c ≠ '\r') && !hasSub ['\n', '\n'] (h ++ ['\n'])

def validDoc (d : VttDoc) : Bool :=
  headerOk d.header && d.cues.all validCue

/-- The lines of the document body (cues separated by blank lines). -/
def docLines (d : VttDoc) : List (List Char) :=
  groupsJoin (d.cues.map cueLinesVtt)

/-- Serialize a document: `WEBVTT` header line(s), a blank line, then the
cues separated by blank lines, with no trailing line terminator (so the
final cue is "unterminated" in the sense of the spec). -/
def renderVtt (d : VttDoc) : List Char :=
  webvttL ++ d.header ++ '\n' :: '\n' :: joinNL (docLines d)

/-- Join SRT block bodies with a blank line between consecutive blocks. -/
def nlnlJoin : List (List Char) → List Char
  | [] => []
  | [b] => b
  | b :: bs => b ++ '\n' :: '\n' :: nlnlJoin bs

/-- The expected SRT serialization of a document's cues (sequence numbers
`1..n` in order, each cue's payload verbatim) — stated from the spec's
words, to be compared with what `vtt_to_srt` produces. -/
def renderSrt (d : VttDoc) : List Char :=
  nlnlJoin ((d.cues.enum).map (fun p => natToChars (p.1 + 1) ++ '\n' :: joinNL (cueLinesSrt p.2)))

/-- Group a line list into blocks at blank lines (observer used to state
claims about the block structure of outputs). -/
def splitBlankGo : List (List Char) → List (List Char) → List (List (List Char))
  | acc, [] => [acc.reverse]
  | acc, [] :: ls =>
    match ls with
    | [] => [acc.reverse]
    | _ :: _ => acc.reverse :: splitBlankGo [] ls
  | acc, l :: ls => splitBlankGo (l :: acc) ls

/-- The blocks (as line lists) of a rendered document: split the lines at
blank lines. -/
def blocksOf (cs : List Char) : List (List (List Char)) :=
  match splitLines cs with
  | [] => []
  | ls => splitBlankGo [] ls

/-- First line of a character list (up to the first `\n`). -/
def firstLine (cs : List Char) : List Char := cs.takeWhile (fun c => c ≠ '\n')

/-- The payload lines of each block of an SRT document: drop the sequence
number line and the boundary line of each block. -/
def srtCuePayloads (cs : List Char) : List (List (List Char)) :=
  (blocksOf cs).map (fun b => b.drop 2)

-- Sanity examples (concrete evaluations of the embedding).
example : subTimestamps "00:01.500".data = "00:00:01,500".data := by decide
example : subTimestamps "01:02:03.004".data = "01:00:02:03,004".data := by decide
example : subTimestamps "0:01.500".data = "0:01,500".data := by decide
example :
    vtt_to_srt "WEBVTT\n\n00:00.000 --> 00:02.500\nHello world\n\n00:02.500 --> 00:05.000\nSecond line".data
      = "1\n00:00:00,000 --> 00:00:02,500\nHello world\n\n2\n00:00:02,500 --> 00:00:05,000\nSecond line".data := by
  decide
example :
    strip_timestamps "WEBVTT\n\n00:00.000 --> 00:02.500\nHello world\n\n00:02.500 --> 00:05.000\nSecond line".data
      = "00:00.000 --> 00:02.500\nHello world\n00:02.500 --> 00:05.000\nSecond line".data := by
  decide
example :
    strip_timestamps "1\n00:00:00,000 --> 00:00:02,500\nHello world\n\n2\n00:00:02,500 --> 00:00:05,000\nSecond line\n".data
      = "Hello world\nSecond line".data := by
  decide
example : strip_timestamps " 1\nz".data = "1\nz".data := by decide
example : strip_timestamps "1\nz".data = "z".data := by decide
example : sanitize_filename "Bad:Name/Test?\"".data = "BadNameTest".data := by decide

/-! ## Small facts about characters -/

theorem digit_ne_of {c x : Char} (h : c.isDigit = true) (hx : x.isDigit = false) :
    c ≠ x := by
  intro e; rw [e, hx] at h; exact absurd h (by simp)

theorem digit_ne_dot {c : Char} (h : c.isDigit = true) : c ≠ '.' :=
  digit_ne_of h (by decide)

theorem digit_ne_colon {c : Char} (h : c.isDigit = true) : c ≠ ':' :=
  digit_ne_of h (by decide)

theorem digit_ne_nl {c : Char} (h : c.isDigit = true) : c ≠ '\n' :=
  digit_ne_of h (by decide)

theorem digit_not_space {c : Char} (h : c.isDigit = true) : pyIsSpace c = false := by
  have h1 : c ≠ ' ' := digit_ne_of h (by decide)
  have h2 : c ≠ '\t' := digit_ne_of h (by decide)
  have h3 : c ≠ '\n' := digit_ne_of h (by decide)
  have h4 : c ≠ '\r' := digit_ne_of h (by decide)
  have h5 : c ≠ '\x0b' := digit_ne_of h (by decide)
  have h6 : c ≠ '\x0c' := digit_ne_of h (by decide)
  simp [pyIsSpace, h1, h2, h3, h4, h5, h6]

/-! ## C9: `sanitize_filename` -/

/-- `sanitize_filename` is exactly the character filter that deletes the
class `[\\/*?:"<>|]` and keeps every other character in order. -/
theorem sanitize_filename_eq_filter (s : List Char) :
    sanitize_filename s = s.filter (fun c => !badFileChar c) := by
  induction s with
  | nil => rfl
  | cons c cs ih =>
    by_cases h : badFileChar c = true
    · simp [sanitize_filename, h, List.filter, ih]
    · simp [sanitize_filename, h, List.filter, ih]

/-- Output file names as built by `process_subtitles` (lines 257 and 262):
the sanitized video title followed by the extension of the requested
format. -/
def srt_final_name (title : List Char) : List Char :=
  sanitize_filename title ++ ".srt".data

def txt_final_name (title : List Char) : List Char :=
  sanitize_filename title ++ ".txt".data

/-- C9: `sanitize_filename` removes exactly the characters of the class
`\ / * ? : " < > |` and leaves every other character unchanged and in
order (it is the filter by non-membership in that class); in particular
`sanitize_filename "Bad:Name/Test?\""` is `"BadNameTest"`, and the
output filenames are the sanitized title followed by the requested
format's extension. -/
theorem c9_sanitize_removes_exactly_the_class :
    (∀ s : List Char, sanitize_filename s = s.filter (fun c => !badFileChar c))
    ∧ (∀ c : Char, badFileChar c = true ↔ c ∈ "\\/*?:\"<>|".data)
    ∧ sanitize_filename "Bad:Name/Test?\"".data = "BadNameTest".data
    ∧ (∀ t : List Char, srt_final_name t = sanitize_filename t ++ ".srt".data
        ∧ txt_final_name t = sanitize_filename t ++ ".txt".data) := by
  refine ⟨sanitize_filename_eq_filter, ?_, by decide, fun t => ⟨rfl, rfl⟩⟩
  intro c
  show (badFileChar c = true ↔ c ∈ ['\\', '/', '*', '?', ':', '"', '<', '>', '|'])
  simp only [badFileChar, Bool.or_eq_true, beq_iff_eq, List.mem_cons, List.not_mem_nil,
    or_false]
  tauto

/-- The spec's example WebVTT document. -/
def exampleVtt : List Char :=
  "WEBVTT\n\n00:00.000 --> 00:02.500\nHello world\n\n00:02.500 --> 00:05.000\nSecond line".data

/-- C6: on the spec's example document `vtt_to_srt` produces exactly the
expected two-block SRT text. -/
theorem c6_example_end_to_end :
    vtt_to_srt exampleVtt
      = "1\n00:00:00,000 --> 00:00:02,500\nHello world\n\n2\n00:00:02,500 --> 00:00:05,000\nSecond line".data := by
  decide

/-- C3 (code bug): the timestamp regex `\d{1,2}:\d{2}[\.,]\d{3}` of
`vtt_to_srt` can never match a full `HH:MM:SS.mmm` timestamp as a whole —
it matches only the trailing `MM:SS.mmm`, whose minute field has two
digits and one colon, so `fix_timestamp` splices `00:` in after the hour
field instead of leaving it unchanged: `"01:02:03.004"` becomes
`"01:00:02:03,004"`, not `"01:02:03,004"`. -/
theorem c3_full_timestamp_hours_corrupted :
    subTimestamps "01:02:03.004".data = "01:00:02:03,004".data
    ∧ subTimestamps "01:02:03.004".data ≠ "01:02:03,004".data
    ∧ vtt_to_srt "01:02:03.004 --> 01:02:04.004\nx".data
        = "1\n01:00:02:03,004 --> 01:00:02:04,004\nx".data := by
  exact ⟨by decide, by decide, by decide⟩

/-- C5 counterexample: `"0:01.500"` has no hour field (exactly one `:`
separator), yet `fix_timestamp` does not prepend `00:` — the minute field
has one character, not two — so only `.` is replaced by `,`. -/
theorem c5_counterexample_single_digit_minute :
    subTimestamps "0:01.500".data = "0:01,500".data
    ∧ subTimestamps "0:01.500".data ≠ "00:0:01,500".data := by
  exact ⟨by decide, by decide⟩

/-- C5 (amended): a standalone short-form timestamp with a two-digit
minute field is rewritten to `00:MM:SS,mmm`; with a one-digit minute field
only the separator is rewritten and no `00:` is prepended. -/
theorem c5_short_form_rewrite (m1 m2 n s1 s2 f1 f2 f3 : Char)
    (hm1 : m1.isDigit = true) (hm2 : m2.isDigit = true) (hn : n.isDigit = true)
    (hs1 : s1.isDigit = true) (hs2 : s2.isDigit = true)
    (hf1 : f1.isDigit = true) (hf2 : f2.isDigit = true) (hf3 : f3.isDigit = true) :
    subTimestamps [m1, m2, ':', s1, s2, '.', f1, f2, f3]
        = ['0', '0', ':', m1, m2, ':', s1, s2, ',', f1, f2, f3]
    ∧ subTimestamps [n, ':', s1, s2, '.', f1, f2, f3]
        = [n, ':', s1, s2, ',', f1, f2, f3] := by
  constructor
  · simp [subTimestamps, fix_timestamp, sepOk, List.count_cons, List.count_nil,
      hm1, hm2, hs1, hs2, hf1, hf2, hf3,
      digit_ne_dot hm1, digit_ne_dot hm2, digit_ne_dot hs1, digit_ne_dot hs2,
      digit_ne_dot hf1, digit_ne_dot hf2, digit_ne_dot hf3,
      digit_ne_colon hm1, digit_ne_colon hm2, digit_ne_colon hs1, digit_ne_colon hs2,
      digit_ne_colon hf1, digit_ne_colon hf2, digit_ne_colon hf3]
  · simp [subTimestamps, fix_timestamp, sepOk, List.count_cons, List.count_nil,
      hn, hs1, hs2, hf1, hf2, hf3,
      digit_ne_dot hn, digit_ne_dot hs1, digit_ne_dot hs2,
      digit_ne_dot hf1, digit_ne_dot hf2, digit_ne_dot hf3,
      digit_ne_colon hn, digit_ne_colon hs1, digit_ne_colon hs2,
      digit_ne_colon hf1, digit_ne_colon hf2, digit_ne_colon hf3]

/-- Witness for the amended C5 at the spec's concrete timestamp. -/
theorem c5_short_form_rewrite_witness :
    ('0' : Char).isDigit = true
    ∧ subTimestamps "00:01.500".data = "00:00:01,500".data := by
  refine ⟨by decide, ?_⟩
  have h := c5_short_form_rewrite '0' '0' '0' '0' '1' '5' '0' '0'
    (by decide) (by decide) (by decide) (by decide) (by decide) (by decide)
    (by decide) (by decide)
  exact h.1

/-- C2 (code bug): the cue-line regex of `strip_timestamps` requires both
timestamps in the full two-colon form, so WebVTT short-form boundary lines
are not removed: on the spec's example document the output still contains
`-->` (and both boundary lines), instead of the spec's
`"Hello world\nSecond line"`. -/
theorem c2_short_form_boundaries_survive_clean :
    strip_timestamps exampleVtt
      = "00:00.000 --> 00:02.500\nHello world\n00:02.500 --> 00:05.000\nSecond line".data
    ∧ hasSub "-->".data (strip_timestamps exampleVtt) = true
    ∧ strip_timestamps exampleVtt ≠ "Hello world\nSecond line".data := by
  exact ⟨by decide, by decide, by decide⟩

/-- C8 counterexample: `" 1\nz"` is untouched by all four strip passes of
`strip_timestamps` (no header, no cue line, no tag, no standalone numeric
line — its only digit line starts with a space), yet `clean` is not
idempotent on it: the final trim exposes `1` as a standalone numeric line,
which the second application then removes. -/
theorem c8_counterexample_not_idempotent :
    (strip_header_clean " 1\nz".data = " 1\nz".data
      ∧ cue_line_sub " 1\nz".data = " 1\nz".data
      ∧ tag_sub " 1\nz".data = " 1\nz".data
      ∧ digit_line_sub " 1\nz".data = " 1\nz".data)
    ∧ strip_timestamps " 1\nz".data = "1\nz".data
    ∧ strip_timestamps (strip_timestamps " 1\nz".data) = "z".data
    ∧ strip_timestamps (strip_timestamps " 1\nz".data) ≠ strip_timestamps " 1\nz".data := by
  exact ⟨⟨by decide, by decide, by decide, by decide⟩, by decide, by decide, by decide⟩

/-- C8 (amended): `clean` is idempotent on text that is a fixpoint of all
of its passes — nothing for the four strip passes to remove, no newline
run to collapse, and no surrounding whitespace to trim.  (Without the last
two conditions idempotence fails, as trimming can expose a standalone
numeric line.) -/
theorem c8_idempotent_on_fixpoints (x : List Char)
    (h1 : strip_header_clean x = x) (h2 : cue_line_sub x = x)
    (h3 : tag_sub x = x) (h4 : digit_line_sub x = x)
    (h5 : nlCollapse x = x) (h6 : pyStrip x = x) :
    strip_timestamps (strip_timestamps x) = strip_timestamps x := by
  have hx : strip_timestamps x = x := by
    unfold strip_timestamps
    rw [h1, h2, h3, h4, h5, h6]
  rw [hx, hx]

/-- Witness for the amended C8 on concrete already-clean text. -/
theorem c8_idempotent_on_fixpoints_witness :
    (strip_header_clean "Hello world\nSecond line".data = "Hello world\nSecond line".data
      ∧ cue_line_sub "Hello world\nSecond line".data = "Hello world\nSecond line".data
      ∧ tag_sub "Hello world\nSecond line".data = "Hello world\nSecond line".data
      ∧ digit_line_sub "Hello world\nSecond line".data = "Hello world\nSecond line".data
      ∧ nlCollapse "Hello world\nSecond line".data = "Hello world\nSecond line".data
      ∧ pyStrip "Hello world\nSecond line".data = "Hello world\nSecond line".data)
    ∧ strip_timestamps (strip_timestamps "Hello world\nSecond line".data)
        = strip_timestamps "Hello world\nSecond line".data := by
  refine ⟨⟨by decide, by decide, by decide, by decide, by decide, by decide⟩, ?_⟩
  exact c8_idempotent_on_fixpoints _ (by decide) (by decide) (by decide) (by decide)
    (by decide) (by decide)

/-! ## The timestamp rewriting pass, symbolically -/

theorem subTs_of_none {c : Char} {cs : List Char} (h : tryMatch (c :: cs) = none) :
    subTimestamps (c :: cs) = c :: subTimestamps cs := by
  rcases cs with _ | ⟨b, _ | ⟨c3, _ | ⟨d, _ | ⟨e, _ | ⟨f, _ | ⟨g, _ | ⟨h8, _ | ⟨i, rest⟩⟩⟩⟩⟩⟩⟩⟩
  · rfl
  · rfl
  · rfl
  · rfl
  · rfl
  · rfl
  · rfl
  · simp only [subTimestamps]
    split
    · rename_i hg
      rw [tryMatch, if_pos hg] at h
      exact absurd h (by simp)
    · rfl
  · simp only [subTimestamps]
    split
    · rename_i hg
      rw [tryMatch, if_pos hg] at h
      exact absurd h (by simp)
    · split
      · rename_i hg9 hg8
        rw [tryMatch, if_neg hg9, if_pos hg8] at h
        exact absurd h (by simp)
      · rfl

theorem subTs_of_some {l : List Char} {m r : List Char} (h : tryMatch l = some (m, r)) :
    subTimestamps l = fix_timestamp m ++ subTimestamps r := by
  rcases l with _ | ⟨a, _ | ⟨b, _ | ⟨c3, _ | ⟨d, _ | ⟨e, _ | ⟨f, _ | ⟨g, _ | ⟨h8, _ | ⟨i, rest⟩⟩⟩⟩⟩⟩⟩⟩⟩
  · simp [tryMatch] at h
  · simp [tryMatch] at h
  · simp [tryMatch] at h
  · simp [tryMatch] at h
  · simp [tryMatch] at h
  · simp [tryMatch] at h
  · simp [tryMatch] at h
  · simp [tryMatch] at h
  · rw [tryMatch] at h
    split at h
    · rename_i hg
      obtain ⟨hm, hr⟩ := by simpa using h
      subst hm; subst hr
      simp only [subTimestamps]
      rw [if_pos hg]
      simp [subTimestamps]
    · simp at h
  · rw [tryMatch] at h
    split at h
    · rename_i hg
      obtain ⟨hm, hr⟩ := by simpa using h
      subst hm; subst hr
      simp only [subTimestamps]
      rw [if_pos hg]
    · split at h
      · rename_i hg9 hg8
        obtain ⟨hm, hr⟩ := by simpa using h
        subst hm; subst hr
        simp only [subTimestamps]
        rw [if_neg hg9, if_pos hg8]
      · simp at h

theorem tm_none_head {c : Char} (hc : c.isDigit = false) (cs : List Char) :
    tryMatch (c :: cs) = none := by
  rcases cs with _ | ⟨b, _ | ⟨c3, _ | ⟨d, _ | ⟨e, _ | ⟨f, _ | ⟨g, _ | ⟨h8, _ | ⟨i, rest⟩⟩⟩⟩⟩⟩⟩⟩
  all_goals simp [tryMatch, hc]

theorem tm_facts {l m r : List Char} (h : tryMatch l = some (m, r)) :
    l = m ++ r ∧ ('\n' ∉ m) ∧ 8 ≤ m.length ∧ ∀ y, tryMatch (m ++ y) = some (m, y) := by
  rcases l with _ | ⟨a, _ | ⟨b, _ | ⟨c3, _ | ⟨d, _ | ⟨e, _ | ⟨f, _ | ⟨g, _ | ⟨h8, _ | ⟨i, rest⟩⟩⟩⟩⟩⟩⟩⟩⟩
  · simp [tryMatch] at h
  · simp [tryMatch] at h
  · simp [tryMatch] at h
  · simp [tryMatch] at h
  · simp [tryMatch] at h
  · simp [tryMatch] at h
  · simp [tryMatch] at h
  · simp [tryMatch] at h
  · rw [tryMatch] at h
    split at h
    · rename_i hg
      obtain ⟨hm, hr⟩ := by simpa using h
      subst hm; subst hr
      obtain ⟨⟨⟨⟨⟨⟨⟨ha, hb⟩, hc⟩, hd⟩, he⟩, hf⟩, hg7⟩, hh⟩ := by
        simpa [Bool.and_eq_true] using hg
      refine ⟨by simp, ?_, by simp, ?_⟩
      · intro hmem
        simp only [List.mem_cons, List.not_mem_nil, or_false] at hmem
        rcases hmem with rfl | rfl | rfl | rfl | rfl | rfl | rfl | rfl <;>
          simp_all [Char.isDigit, sepOk]
      · intro y
        rcases y with _ | ⟨z, zs⟩
        · simp only [List.append_nil]
          rw [tryMatch, if_pos hg]
        · have hb' : b = ':' := by simpa using hb
          have hbd : b.isDigit = false := by rw [hb']; decide
          show tryMatch (a :: b :: c3 :: d :: e :: f :: g :: h8 :: z :: zs) = _
          rw [tryMatch]
          rw [if_neg ?g9, if_pos hg]
          case g9 => simp [hbd]
    · simp at h
  · rw [tryMatch] at h
    split at h
    · rename_i hg
      obtain ⟨hm, hr⟩ := by simpa using h
      subst hm; subst hr
      obtain ⟨⟨⟨⟨⟨⟨⟨⟨ha, hb⟩, hc⟩, hd⟩, he⟩, hf⟩, hg7⟩, hh⟩, hi⟩ := by
        simpa [Bool.and_eq_true] using hg
      refine ⟨by simp, ?_, by simp, ?_⟩
      · intro hmem
        simp only [List.mem_cons, List.not_mem_nil, or_false] at hmem
        rcases hmem with rfl | rfl | rfl | rfl | rfl | rfl | rfl | rfl | rfl <;>
          simp_all [Char.isDigit, sepOk]
      · intro y
        show tryMatch (a :: b :: c3 :: d :: e :: f :: g :: h8 :: i :: y) = _
        rw [tryMatch, if_pos hg]
    · split at h
      · rename_i hg9 hg8
        obtain ⟨hm, hr⟩ := by simpa using h
        subst hm; subst hr
        obtain ⟨⟨⟨⟨⟨⟨⟨ha, hb⟩, hc⟩, hd⟩, he⟩, hf⟩, hg7⟩, hh⟩ := by
          simpa [Bool.and_eq_true] using hg8
        refine ⟨by simp, ?_, by simp, ?_⟩
        · intro hmem
          simp only [List.mem_cons, List.not_mem_nil, or_false] at hmem
          rcases hmem with rfl | rfl | rfl | rfl | rfl | rfl | rfl | rfl <;>
            simp_all [Char.isDigit, sepOk]
        · intro y
          rcases y with _ | ⟨z, zs⟩
          · simp only [List.append_nil]
            rw [tryMatch]
            rw [if_pos hg8]
          · have hb' : b = ':' := by simpa using hb
            have hbd : b.isDigit = false := by rw [hb']; decide
            show tryMatch (a :: b :: c3 :: d :: e :: f :: g :: h8 :: z :: zs) = _
            rw [tryMatch]
            rw [if_neg ?g9b, if_pos hg8]
            case g9b => simp [hbd]
      · simp at h

theorem tm_some_ext {s m r : List Char} (h : tryMatch s = some (m, r)) (x : List Char) :
    tryMatch (s ++ x) = some (m, r ++ x) := by
  obtain ⟨hs, _, _, hall⟩ := tm_facts h
  rw [hs, List.append_assoc]
  exact hall (r ++ x)

theorem append_eq_of_no_nl {m r' l rest : List Char} (hm : '\n' ∉ m) (hl : '\n' ∉ l)
    (he : m ++ r' = l ++ '\n' :: rest) :
    ∃ l₂, l = m ++ l₂ ∧ r' = l₂ ++ '\n' :: rest := by
  induction m generalizing l with
  | nil => exact ⟨l, rfl, he⟩
  | cons a m ih =>
    cases l with
    | nil =>
      simp only [List.nil_append, List.cons_append] at he
      injection he with h1 _
      subst h1
      exact absurd (List.mem_cons_self _ _) hm
    | cons b l' =>
      simp only [List.cons_append, List.cons.injEq] at he
      obtain ⟨rfl, he2⟩ := he
      have hm' : '\n' ∉ m := fun hx => hm (List.mem_cons_of_mem _ hx)
      have hl' : '\n' ∉ l' := fun hx => hl (List.mem_cons_of_mem _ hx)
      obtain ⟨l₂, h1, h2⟩ := ih hm' hl' he2
      exact ⟨l₂, by rw [h1, List.cons_append], h2⟩

theorem subTs_line_split : ∀ (n : Nat) (l rest : List Char), l.length ≤ n → '\n' ∉ l →
    subTimestamps (l ++ '\n' :: rest) = subTimestamps l ++ '\n' :: subTimestamps rest := by
  intro n
  induction n with
  | zero =>
    intro l rest hn _
    rw [List.length_eq_zero.mp (Nat.le_zero.mp hn)]
    rw [List.nil_append]
    rw [subTs_of_none (tm_none_head (by decide) rest)]
    rfl
  | succ n ih =>
    intro l rest hn hl
    cases l with
    | nil =>
      rw [List.nil_append]
      rw [subTs_of_none (tm_none_head (by decide) rest)]
      rfl
    | cons c l'' =>
      rcases htm : tryMatch (c :: l'' ++ '\n' :: rest) with _ | ⟨m, r'⟩
      · have hctx : tryMatch (c :: (l'' ++ '\n' :: rest)) = none := by
          simpa using htm
        rw [List.cons_append, subTs_of_none hctx]
        have hl'' : '\n' ∉ l'' := fun hx => hl (List.mem_cons_of_mem _ hx)
        rw [ih l'' rest (by simp only [List.length_cons] at hn; omega) hl'']
        have hstand : tryMatch (c :: l'') = none := by
          rcases h2 : tryMatch (c :: l'') with _ | ⟨m, r⟩
          · rfl
          · have := tm_some_ext h2 ('\n' :: rest)
            rw [List.cons_append] at this
            rw [this] at hctx
            exact absurd hctx (by simp)
        rw [subTs_of_none hstand, List.cons_append]
      · have hfacts := tm_facts htm
        obtain ⟨heq, hmnl, hmlen, hall⟩ := hfacts
        have heq' : m ++ r' = (c :: l'') ++ '\n' :: rest := by
          rw [← heq]
        obtain ⟨l₂, hl₂, hr'⟩ := append_eq_of_no_nl hmnl hl heq'
        rw [subTs_of_some htm, hr']
        have hl₂nl : '\n' ∉ l₂ := by
          intro hx
          apply hl
          rw [hl₂]
          exact List.mem_append_right m hx
        have hlen : l₂.length ≤ n := by
          have : (c :: l'').length = m.length + l₂.length := by
            rw [hl₂, List.length_append]
          have h1 : (c :: l'').length ≤ n + 1 := hn
          omega
        rw [ih l₂ rest hlen hl₂nl]
        rw [hl₂, subTs_of_some (hall l₂), List.append_assoc]

theorem colon_not_digit : (':' : Char).isDigit = false := by decide

theorem subTs_append_line {l : List Char} (rest : List Char) (hl : '\n' ∉ l) :
    subTimestamps (l ++ '\n' :: rest) = subTimestamps l ++ '\n' :: subTimestamps rest :=
  subTs_line_split l.length l rest le_rfl hl

theorem subTs_joinNL : ∀ ls : List (List Char), (∀ l ∈ ls, '\n' ∉ l) →
    subTimestamps (joinNL ls) = joinNL (ls.map subTimestamps) := by
  intro ls
  induction ls with
  | nil => intro _; rfl
  | cons l ls ih =>
    intro hall
    cases ls with
    | nil => rfl
    | cons l2 ls2 =>
      have h1 : '\n' ∉ l := hall l (List.mem_cons_self _ _)
      have h2 : ∀ x ∈ l2 :: ls2, '\n' ∉ x := fun x hx => hall x (List.mem_cons_of_mem _ hx)
      show subTimestamps (l ++ '\n' :: joinNL (l2 :: ls2)) = _
      rw [subTs_append_line _ h1, ih h2]
      rfl

theorem subTs_nondigit_cons {c : Char} (hc : c.isDigit = false) (cs : List Char) :
    subTimestamps (c :: cs) = c :: subTimestamps cs :=
  subTs_of_none (tm_none_head hc cs)

theorem fix_two_digit (m1 m2 s1 s2 f1 f2 f3 : Char)
    (h1 : m1.isDigit = true) (h2 : m2.isDigit = true) (h3 : s1.isDigit = true)
    (h4 : s2.isDigit = true) (h5 : f1.isDigit = true) (h6 : f2.isDigit = true)
    (h7 : f3.isDigit = true) :
    fix_timestamp [m1, m2, ':', s1, s2, '.', f1, f2, f3]
      = ['0', '0', ':', m1, m2, ':', s1, s2, ',', f1, f2, f3] := by
  simp [fix_timestamp, List.count_cons, List.count_nil,
    digit_ne_dot h1, digit_ne_dot h2, digit_ne_dot h3, digit_ne_dot h4,
    digit_ne_dot h5, digit_ne_dot h6, digit_ne_dot h7,
    digit_ne_colon h1, digit_ne_colon h2, digit_ne_colon h3, digit_ne_colon h4,
    digit_ne_colon h5, digit_ne_colon h6, digit_ne_colon h7]

theorem subTs_ts_append (t : Ts) (ht : validTs t = true) (rest : List Char) :
    subTimestamps (renderTs t ++ rest) = srtTs t ++ subTimestamps rest := by
  cases t with
  | short m1 m2 s1 s2 f1 f2 f3 =>
    simp only [validTs, Bool.and_eq_true] at ht
    obtain ⟨⟨⟨⟨⟨⟨h1, h2⟩, h3⟩, h4⟩, h5⟩, h6⟩, h7⟩ := ht
    have hm : tryMatch (m1 :: m2 :: ':' :: s1 :: s2 :: '.' :: f1 :: f2 :: f3 :: rest)
        = some ([m1, m2, ':', s1, s2, '.', f1, f2, f3], rest) := by
      rw [tryMatch]
      rw [if_pos (by simp [h1, h2, h3, h4, h5, h6, h7, sepOk])]
    show subTimestamps (m1 :: m2 :: ':' :: s1 :: s2 :: '.' :: f1 :: f2 :: f3 :: rest) = _
    rw [subTs_of_some hm, fix_two_digit m1 m2 s1 s2 f1 f2 f3 h1 h2 h3 h4 h5 h6 h7]
    rfl
  | full g1 g2 m1 m2 s1 s2 f1 f2 f3 =>
    simp only [validTs, Bool.and_eq_true] at ht
    obtain ⟨⟨⟨⟨⟨⟨⟨⟨hg1, hg2⟩, h1⟩, h2⟩, h3⟩, h4⟩, h5⟩, h6⟩, h7⟩ := ht
    have e1 : tryMatch (g1 :: g2 :: ':' :: m1 :: m2 :: ':' :: s1 :: s2 :: '.'
        :: (f1 :: f2 :: f3 :: rest)) = none := by
      rw [tryMatch]
      rw [if_neg (by simp [sepOk]), if_neg (by simp [digit_ne_colon hg2])]
    have e2 : tryMatch (g2 :: ':' :: m1 :: m2 :: ':' :: s1 :: s2 :: '.' :: f1
        :: (f2 :: f3 :: rest)) = none := by
      rw [tryMatch]
      rw [if_neg (by simp [colon_not_digit]), if_neg (by simp [sepOk])]
    have hm : tryMatch (m1 :: m2 :: ':' :: s1 :: s2 :: '.' :: f1 :: f2 :: f3 :: rest)
        = some ([m1, m2, ':', s1, s2, '.', f1, f2, f3], rest) := by
      rw [tryMatch]
      rw [if_pos (by simp [h1, h2, h3, h4, h5, h6, h7, sepOk])]
    show subTimestamps (g1 :: g2 :: ':' :: m1 :: m2 :: ':' :: s1 :: s2 :: '.'
        :: f1 :: f2 :: f3 :: rest) = _
    rw [subTs_of_none e1, subTs_of_none e2,
      subTs_nondigit_cons colon_not_digit, subTs_of_some hm,
      fix_two_digit m1 m2 s1 s2 f1 f2 f3 h1 h2 h3 h4 h5 h6 h7]
    rfl

theorem subTs_arrow_append (x : List Char) :
    subTimestamps (arrowL ++ x) = arrowL ++ subTimestamps x := by
  show subTimestamps (' ' :: '-' :: '-' :: '>' :: ' ' :: x) = _
  rw [subTs_nondigit_cons (by decide), subTs_nondigit_cons (by decide),
    subTs_nondigit_cons (by decide), subTs_nondigit_cons (by decide),
    subTs_nondigit_cons (by decide)]
  rfl

theorem subTs_cue_boundary (t1 t2 : Ts) (h1 : validTs t1 = true) (h2 : validTs t2 = true) :
    subTimestamps (renderTs t1 ++ arrowL ++ renderTs t2) = srtTs t1 ++ arrowL ++ srtTs t2 := by
  rw [List.append_assoc, subTs_ts_append t1 h1, subTs_arrow_append]
  have : subTimestamps (renderTs t2) = srtTs t2 := by
    have := subTs_ts_append t2 h2 []
    simpa [subTimestamps] using this
  rw [this, List.append_assoc]

/-! ## Validity accessors and body rewriting -/

theorem map_eq_self_of {α : Type} {f : α → α} {l : List α} (h : ∀ x ∈ l, f x = x) :
    l.map f = l := by
  induction l with
  | nil => rfl
  | cons a l ih =>
    rw [List.map_cons, h a (List.mem_cons_self _ _),
      ih (fun x hx => h x (List.mem_cons_of_mem _ hx))]

theorem lineOk_parts {l : List Char} (h : lineOk l = true) :
    isNonBlank l = true ∧ hasSub arrowL l = false ∧ subTimestamps l = l
      ∧ pyStrip l = l ∧ ∀ c ∈ l, lineBreakish c = false := by
  simp only [lineOk, Bool.and_eq_true, Bool.not_eq_true', beq_iff_eq,
    List.all_eq_true, Bool.not_eq_true] at h
  obtain ⟨⟨⟨⟨ha, hb⟩, hc⟩, hd⟩, he⟩ := h
  exact ⟨ha, hb, hc, hd, fun c hc' => by simpa using he c hc'⟩

theorem lineOk_no_nl {l : List Char} (h : lineOk l = true) : '\n' ∉ l := by
  intro hm
  have := (lineOk_parts h).2.2.2.2 '\n' hm
  exact absurd this (by decide)

theorem validCue_parts {c : Cue} (h : validCue c = true) :
    validTs c.start = true ∧ validTs c.stop = true ∧ ∀ l ∈ c.payload, lineOk l = true := by
  simp only [validCue, Bool.and_eq_true, List.all_eq_true] at h
  exact ⟨h.1.1, h.1.2, h.2⟩

theorem nl_not_mem_renderTs {t : Ts} (ht : validTs t = true) : '\n' ∉ renderTs t := by
  cases t with
  | short m1 m2 s1 s2 f1 f2 f3 =>
    simp only [validTs, Bool.and_eq_true] at ht
    obtain ⟨⟨⟨⟨⟨⟨h1, h2⟩, h3⟩, h4⟩, h5⟩, h6⟩, h7⟩ := ht
    intro hmem
    simp only [renderTs, List.mem_cons, List.not_mem_nil, or_false] at hmem
    rcases hmem with h | h | h | h | h | h | h | h | h <;>
      first
      | exact absurd h (by decide)
      | (subst h; simp_all [show ('\n' : Char).isDigit = false from by decide])
  | full g1 g2 m1 m2 s1 s2 f1 f2 f3 =>
    simp only [validTs, Bool.and_eq_true] at ht
    obtain ⟨⟨⟨⟨⟨⟨⟨⟨hg1, hg2⟩, h1⟩, h2⟩, h3⟩, h4⟩, h5⟩, h6⟩, h7⟩ := ht
    intro hmem
    simp only [renderTs, List.mem_cons, List.not_mem_nil, or_false] at hmem
    rcases hmem with h | h | h | h | h | h | h | h | h | h | h | h <;>
      first
      | exact absurd h (by decide)
      | (subst h; simp_all [show ('\n' : Char).isDigit = false from by decide])

theorem groupsJoin_mem {gs : List (List (List Char))} {x : List Char}
    (h : x ∈ groupsJoin gs) : x = [] ∨ ∃ g ∈ gs, x ∈ g := by
  induction gs with
  | nil => simp [groupsJoin] at h
  | cons g gs ih =>
    cases gs with
    | nil =>
      right
      exact ⟨g, List.mem_cons_self _ _, by simpa [groupsJoin] using h⟩
    | cons g2 gs2 =>
      simp only [groupsJoin, List.mem_append, List.mem_cons] at h
      rcases h with h | h | h
      · exact Or.inr ⟨g, List.mem_cons_self _ _, h⟩
      · exact Or.inl h
      · rcases ih h with h' | ⟨g', hg', hx⟩
        · exact Or.inl h'
        · exact Or.inr ⟨g', List.mem_cons_of_mem _ hg', hx⟩

theorem cueLinesVtt_no_nl {c : Cue} (h : validCue c = true) :
    ∀ l ∈ cueLinesVtt c, '\n' ∉ l := by
  obtain ⟨h1, h2, h3⟩ := validCue_parts h
  intro l hl
  simp only [cueLinesVtt, List.mem_cons] at hl
  rcases hl with rfl | hl
  · intro hm
    simp only [List.append_assoc, List.mem_append] at hm
    rcases hm with hm | hm | hm
    · exact nl_not_mem_renderTs h1 hm
    · exact absurd hm (by decide)
    · exact nl_not_mem_renderTs h2 hm
  · exact lineOk_no_nl (h3 l hl)

theorem docLines_no_nl {d : VttDoc} (h : d.cues.all validCue = true) :
    ∀ l ∈ docLines d, '\n' ∉ l := by
  intro l hl
  rcases groupsJoin_mem hl with rfl | ⟨g, hg, hx⟩
  · simp
  · obtain ⟨c, hc, rfl⟩ := List.mem_map.mp hg
    have hvc : validCue c = true := by
      have := List.all_eq_true.mp h c hc
      simpa using this
    exact cueLinesVtt_no_nl hvc l hx

theorem map_subTs_cueLines {c : Cue} (h : validCue c = true) :
    (cueLinesVtt c).map subTimestamps = cueLinesSrt c := by
  obtain ⟨h1, h2, h3⟩ := validCue_parts h
  simp only [cueLinesVtt, cueLinesSrt, List.map_cons]
  rw [subTs_cue_boundary c.start c.stop h1 h2,
    map_eq_self_of (fun l hl => (lineOk_parts (h3 l hl)).2.2.1)]

theorem map_subTs_groupsJoin : ∀ cues : List Cue, cues.all validCue = true →
    (groupsJoin (cues.map cueLinesVtt)).map subTimestamps
      = groupsJoin (cues.map cueLinesSrt) := by
  intro cues
  induction cues with
  | nil => intro _; rfl
  | cons c cs ih =>
    intro h
    have hc : validCue c = true := by
      have := List.all_eq_true.mp h c (List.mem_cons_self _ _)
      simpa using this
    have hcs : cs.all validCue = true := by
      rw [List.all_eq_true]
      intro x hx
      exact List.all_eq_true.mp h x (List.mem_cons_of_mem _ hx)
    cases cs with
    | nil =>
      show (groupsJoin [cueLinesVtt c]).map subTimestamps = groupsJoin [cueLinesSrt c]
      simpa [groupsJoin] using map_subTs_cueLines hc
    | cons c2 cs2 =>
      show ((cueLinesVtt c ++ [] :: groupsJoin ((c2 :: cs2).map cueLinesVtt)).map subTimestamps) = _
      rw [List.map_append, List.map_cons, map_subTs_cueLines hc, ih hcs]
      rfl

theorem body_sub {d : VttDoc} (h : d.cues.all validCue = true) :
    subTimestamps (joinNL (docLines d)) = joinNL (groupsJoin (d.cues.map cueLinesSrt)) := by
  rw [subTs_joinNL _ (docLines_no_nl h)]
  rw [show docLines d = groupsJoin (d.cues.map cueLinesVtt) from rfl]
  rw [map_subTs_groupsJoin d.cues h]

/-! ## Header stripping on rendered documents -/

theorem vttHdrScan_exact : ∀ (hd body : List Char), (∀ c ∈ hd, c ≠ '\r') →
    hasSub ['\n', '\n'] (hd ++ ['\n']) = false →
    vttHdrScan (hd ++ '\n' :: '\n' :: body) = some body := by
  intro hd
  induction hd with
  | nil => intro body _ _; rfl
  | cons c h' ih =>
    intro body hr hsub
    have hrc : c ≠ '\r' := hr c (List.mem_cons_self _ _)
    have hr' : ∀ x ∈ h', x ≠ '\r' := fun x hx => hr x (List.mem_cons_of_mem _ hx)
    simp only [hasSub, Bool.or_eq_false_iff, List.cons_append] at hsub
    obtain ⟨hpre, hrec⟩ := hsub
    show vttHdrScan (c :: (h' ++ '\n' :: '\n' :: body)) = some body
    by_cases hc : c = '\n'
    · subst hc
      cases h' with
      | nil => exact absurd hpre (by simp [List.isPrefixOf])
      | cons x h'' =>
        have hx : x ≠ '\n' := by
          intro hx
          subst hx
          exact absurd hpre (by simp [List.isPrefixOf])
        simp only [vttHdrScan, if_pos rfl]
        have : (h'' ++ '\n' :: '\n' :: body) = h'' ++ '\n' :: '\n' :: body := rfl
        show (match (x :: h'') ++ '\n' :: '\n' :: body with
          | '\n' :: cs' => some cs'
          | _ => vttHdrScan ((x :: h'') ++ '\n' :: '\n' :: body)) = some body
        rw [List.cons_append]
        split
        · rename_i heq
          rw [show x :: (h'' ++ '\n' :: '\n' :: body)
              = List.cons x (h'' ++ '\n' :: '\n' :: body) from rfl] at heq
          injection heq with h1 _
          exact absurd h1 hx
        · exact ih body hr' (by simpa [hasSub] using hrec)
    · simp only [vttHdrScan, if_neg hc, if_neg hrc]
      exact ih body hr' (by simpa [hasSub] using hrec)

theorem stripHeader_render (hdr body : List Char) (h1 : ∀ c ∈ hdr, c ≠ '\r')
    (h2 : hasSub ['\n', '\n'] (hdr ++ ['\n']) = false) :
    stripHeader (webvttL ++ hdr ++ '\n' :: '\n' :: body) = body := by
  unfold stripHeader
  rw [List.append_assoc]
  rw [if_pos (List.isPrefixOf_iff_prefix.mpr (List.prefix_append _ _))]
  have hdrop : (webvttL ++ (hdr ++ '\n' :: '\n' :: body)).drop 6
      = hdr ++ '\n' :: '\n' :: body := by
    have := List.drop_left webvttL (hdr ++ '\n' :: '\n' :: body)
    simpa [webvttL] using this
  rw [hdrop, vttHdrScan_exact hdr body h1 h2]

/-! ## `splitlines` on rendered line lists -/

theorem splitLinesGo_step {c : Char} (h1 : c ≠ '\n') (h2 : c ≠ '\r')
    (acc cs : List Char) :
    splitLinesGo acc (c :: cs) = splitLinesGo (c :: acc) cs := by
  rcases cs with _ | ⟨x, xs⟩ <;> simp [splitLinesGo, h1, h2]

theorem splitLinesGo_last : ∀ (l acc : List Char), (∀ c ∈ l, c ≠ '\n' ∧ c ≠ '\r') →
    splitLinesGo acc l = [acc.reverse ++ l] := by
  intro l
  induction l with
  | nil => intro acc _; simp [splitLinesGo]
  | cons c l' ih =>
    intro acc hc
    have h1 := hc c (List.mem_cons_self _ _)
    rw [splitLinesGo_step h1.1 h1.2]
    rw [ih (c :: acc) (fun x hx => hc x (List.mem_cons_of_mem _ hx))]
    simp

theorem splitLinesGo_line : ∀ (l : List Char) (acc : List Char) (X : List Char),
    (∀ c ∈ l, c ≠ '\n' ∧ c ≠ '\r') → X ≠ [] →
    splitLinesGo acc (l ++ '\n' :: X) = (acc.reverse ++ l) :: splitLinesGo [] X := by
  intro l
  induction l with
  | nil =>
    intro acc X _ hX
    rcases X with _ | ⟨x, xs⟩
    · exact absurd rfl hX
    · simp [splitLinesGo]
  | cons c l' ih =>
    intro acc X hc hX
    have h1 := hc c (List.mem_cons_self _ _)
    rw [List.cons_append, splitLinesGo_step h1.1 h1.2]
    rw [ih (c :: acc) X (fun x hx => hc x (List.mem_cons_of_mem _ hx)) hX]
    simp

theorem splitLines_ne_nil {x : List Char} (h : x ≠ []) :
    splitLines x = splitLinesGo [] x := by
  rcases x with _ | ⟨c, cs⟩
  · exact absurd rfl h
  · rfl

theorem joinNL_ne_nil : ∀ ls : List (List Char), ls ≠ [] → ls.getLast? ≠ some [] →
    joinNL ls ≠ [] := by
  intro ls
  induction ls with
  | nil => intro h _; exact absurd rfl h
  | cons l ls2 ih =>
    intro _ hlast
    cases ls2 with
    | nil =>
      intro he
      apply hlast
      simp only [joinNL] at he
      rw [he]
      rfl
    | cons l2 ls3 =>
      show l ++ '\n' :: joinNL (l2 :: ls3) ≠ []
      simp

theorem splitLines_joinNL : ∀ ls : List (List Char),
    (∀ l ∈ ls, ∀ c ∈ l, c ≠ '\n' ∧ c ≠ '\r') → ls.getLast? ≠ some [] →
    splitLines (joinNL ls) = ls := by
  intro ls
  induction ls with
  | nil => intro _ _; rfl
  | cons l ls2 ih =>
    intro hok hlast
    cases ls2 with
    | nil =>
      have hl : l ≠ [] := by
        intro he
        exact hlast (by rw [he]; rfl)
      show splitLines l = [l]
      rw [splitLines_ne_nil hl, splitLinesGo_last l [] (hok l (List.mem_cons_self _ _))]
      simp
    | cons l2 ls3 =>
      have hlast2 : (l2 :: ls3).getLast? ≠ some [] := by
        intro he
        apply hlast
        rw [List.getLast?_cons_cons]
        exact he
      have hX : joinNL (l2 :: ls3) ≠ [] :=
        joinNL_ne_nil _ (by simp) hlast2
      show splitLines (l ++ '\n' :: joinNL (l2 :: ls3)) = l :: l2 :: ls3
      rw [splitLines_ne_nil (by simp)]
      rw [splitLinesGo_line l [] _ (hok l (List.mem_cons_self _ _)) hX]
      rw [← splitLines_ne_nil hX]
      rw [ih (fun x hx => hok x (List.mem_cons_of_mem _ hx)) hlast2]
      simp

/-! ## The block loop on rendered line groups -/

theorem hasSub_middle : ∀ (x : List Char) (pat y : List Char), pat ≠ [] →
    hasSub pat (x ++ pat ++ y) = true := by
  intro x
  induction x with
  | nil =>
    intro pat y hp
    rcases pat with _ | ⟨p, ps⟩
    · exact absurd rfl hp
    · show hasSub (p :: ps) ((p :: ps) ++ y) = true
      rw [List.cons_append]
      simp only [hasSub]
      rw [List.isPrefixOf_iff_prefix.mpr (by exact List.prefix_append (p :: ps) y)]
      simp
  | cons c x' ih =>
    intro pat y hp
    show hasSub pat (c :: (x' ++ pat ++ y)) = true
    rcases pat with _ | ⟨p, ps⟩
    · exact absurd rfl hp
    · simp only [hasSub]
      rw [ih (p :: ps) y hp]
      simp

theorem boundary_hasArrow (t1 t2 : Ts) :
    hasSub arrowL (srtTs t1 ++ arrowL ++ srtTs t2) = true :=
  hasSub_middle (srtTs t1) arrowL (srtTs t2) (by decide)

theorem loop_skip_blank (ls : List (List Char)) (k : Nat) (cur : List (List Char)) :
    srtBlocksLoop ([] :: ls) k cur = srtBlocksLoop ls k cur := rfl

theorem loop_accum : ∀ (p : List (List Char)) (rest : List (List Char)) (k : Nat)
    (cur : List (List Char)),
    (∀ l ∈ p, hasSub arrowL l = false ∧ isNonBlank l = true) →
    srtBlocksLoop (p ++ rest) k cur = srtBlocksLoop rest k (cur ++ p) := by
  intro p
  induction p with
  | nil => intro rest k cur _; simp
  | cons l p' ih =>
    intro rest k cur hp
    have h1 := hp l (List.mem_cons_self _ _)
    show srtBlocksLoop (l :: (p' ++ rest)) k cur = _
    simp only [srtBlocksLoop]
    rw [h1.1, h1.2]
    simp only [Bool.false_eq_true, if_false, if_true]
    rw [ih rest k (cur ++ [l]) (fun x hx => hp x (List.mem_cons_of_mem _ hx))]
    rw [List.append_assoc]
    rfl

theorem cueLinesSrt_payload_ok {c : Cue} (h : validCue c = true) :
    ∀ l ∈ c.payload, hasSub arrowL l = false ∧ isNonBlank l = true := by
  obtain ⟨_, _, h3⟩ := validCue_parts h
  intro l hl
  obtain ⟨ha, hb, _, _, _⟩ := lineOk_parts (h3 l hl)
  exact ⟨hb, ha⟩

theorem loop_cues : ∀ (cs : List Cue), cs.all validCue = true →
    ∀ (k : Nat) (cur : List (List Char)), cur ≠ [] →
    srtBlocksLoop (groupsJoin (cs.map cueLinesSrt)) k cur
      = mkBlock k cur :: (cs.enum.map fun p => mkBlock (k + 1 + p.1) (cueLinesSrt p.2)) := by
  intro cs
  induction cs with
  | nil =>
    intro _ k cur hcur
    show srtBlocksLoop [] k cur = _
    simp only [srtBlocksLoop]
    rw [if_neg (by simpa [List.isEmpty_iff] using hcur)]
    simp
  | cons c cs' ih =>
    intro hv k cur hcur
    have hc : validCue c = true := by
      have := List.all_eq_true.mp hv c (List.mem_cons_self _ _)
      simpa using this
    have hcs' : cs'.all validCue = true := by
      rw [List.all_eq_true]
      intro x hx
      exact List.all_eq_true.mp hv x (List.mem_cons_of_mem _ hx)
    have harrow : hasSub arrowL (srtTs c.start ++ arrowL ++ srtTs c.stop) = true :=
      boundary_hasArrow c.start c.stop
    cases cs' with
    | nil =>
      show srtBlocksLoop (cueLinesSrt c) k cur = _
      show srtBlocksLoop ((srtTs c.start ++ arrowL ++ srtTs c.stop) :: c.payload) k cur = _
      simp only [srtBlocksLoop]
      rw [harrow]
      simp only [if_true]
      rw [if_neg (by simpa [List.isEmpty_iff] using hcur)]
      have := loop_accum c.payload [] (k + 1)
        [srtTs c.start ++ arrowL ++ srtTs c.stop] (cueLinesSrt_payload_ok hc)
      rw [show c.payload ++ ([] : List (List Char)) = c.payload from by simp] at this
      rw [this]
      show _ :: srtBlocksLoop [] (k + 1) (cueLinesSrt c) = _
      simp only [srtBlocksLoop]
      rw [if_neg (by simp [cueLinesSrt, List.isEmpty_iff])]
      simp [List.enum_cons']
    | cons c2 cs'' =>
      show srtBlocksLoop ((cueLinesSrt c ++ [] :: groupsJoin ((c2 :: cs'').map cueLinesSrt))) k cur = _
      show srtBlocksLoop ((srtTs c.start ++ arrowL ++ srtTs c.stop)
        :: (c.payload ++ [] :: groupsJoin ((c2 :: cs'').map cueLinesSrt))) k cur = _
      simp only [srtBlocksLoop]
      rw [harrow]
      simp only [if_true]
      rw [if_neg (by simpa [List.isEmpty_iff] using hcur)]
      rw [loop_accum c.payload _ (k + 1) _ (cueLinesSrt_payload_ok hc)]
      rw [loop_skip_blank]
      rw [show ([srtTs c.start ++ arrowL ++ srtTs c.stop] ++ c.payload) = cueLinesSrt c
        from rfl]
      rw [ih hcs' (k + 1) (cueLinesSrt c) (by simp [cueLinesSrt])]
      rw [List.enum_cons' c (c2 :: cs''), List.enum_cons' c2 cs'']
      simp only [List.map_cons, List.map_map, Prod.map_apply, id_eq,
        Function.comp_apply, Function.comp]
      simp only [Nat.add_zero, Nat.zero_add]
      congr 1
      congr 1
      congr 1
      rw [List.map_eq_map_iff]
      intro p _
      simp only [Function.comp_apply, Prod.map_fst, Prod.map_snd, id_eq]
      have harith : k + 1 + 1 + (p.1 + 1) = k + 1 + (p.1 + 1 + 1) := by omega
      rw [harith]

/-! ## `strip` on text with non-whitespace ends -/

theorem dropWhile_eq_self_of_head {p : Char → Bool} {x : List Char} {c : Char}
    (hh : x.head? = some c) (hc : p c = false) : x.dropWhile p = x := by
  rcases x with _ | ⟨a, cs⟩
  · rfl
  · have : a = c := by simpa using hh
    subst this
    simp [List.dropWhile_cons, hc]

theorem pyStrip_eq_self {x : List Char} {a b : Char} (ha : x.head? = some a)
    (hb : x.getLast? = some b) (h1 : pyIsSpace a = false) (h2 : pyIsSpace b = false) :
    pyStrip x = x := by
  unfold pyStrip
  rw [dropWhile_eq_self_of_head ha h1]
  rw [dropWhile_eq_self_of_head (by rw [List.head?_reverse]; exact hb) h2]
  exact List.reverse_reverse x

theorem pyStrip_drop_last_nl {x : List Char} {a b : Char} (ha : x.head? = some a)
    (hb : x.getLast? = some b) (h1 : pyIsSpace a = false) (h2 : pyIsSpace b = false) :
    pyStrip (x ++ ['\n']) = x := by
  have hx : x ≠ [] := by rintro rfl; simp at ha
  unfold pyStrip
  rw [dropWhile_eq_self_of_head
    (show (x ++ ['\n']).head? = some a from
      by rw [List.head?_append_of_ne_nil _ hx]; exact ha) h1]
  rw [List.reverse_append]
  show (List.dropWhile pyIsSpace ('\n' :: x.reverse)).reverse = x
  rw [List.dropWhile_cons]
  rw [if_pos (by decide)]
  rw [dropWhile_eq_self_of_head (by rw [List.head?_reverse]; exact hb) h2]
  exact List.reverse_reverse x

theorem dropWhile_head_false {p : Char → Bool} {x : List Char}
    (hself : x.dropWhile p = x) {c : Char} (hh : x.head? = some c) : p c = false := by
  rcases x with _ | ⟨a, cs⟩
  · simp at hh
  · have hac : a = c := by simpa using hh
    subst hac
    by_cases hp : p a = true
    · rw [List.dropWhile_cons, if_pos hp] at hself
      have hlen := congrArg List.length hself
      have hle : (cs.dropWhile p).length ≤ cs.length :=
        (List.dropWhile_suffix _).length_le
      simp only [List.length_cons] at hlen
      omega
    · simpa using hp

theorem pyStrip_self_ends {l : List Char} (h : pyStrip l = l) (hne : l ≠ []) :
    (∃ a, l.head? = some a ∧ pyIsSpace a = false)
      ∧ ∃ b, l.getLast? = some b ∧ pyIsSpace b = false := by
  have hplen := congrArg List.length h
  unfold pyStrip at hplen
  simp only [List.length_reverse] at hplen
  have s1 : (l.dropWhile pyIsSpace).length ≤ l.length :=
    (List.dropWhile_suffix _).length_le
  have s2 : ((l.dropWhile pyIsSpace).reverse.dropWhile pyIsSpace).length
      ≤ (l.dropWhile pyIsSpace).reverse.length :=
    (List.dropWhile_suffix _).length_le
  simp only [List.length_reverse] at s2
  have he1 : l.dropWhile pyIsSpace = l :=
    (List.dropWhile_suffix _).eq_of_length (by omega)
  rw [he1] at hplen
  have he2 : l.reverse.dropWhile pyIsSpace = l.reverse :=
    (List.dropWhile_suffix _).eq_of_length (by simp only [List.length_reverse]; omega)
  have hrevne : l.reverse ≠ [] := by simpa using hne
  obtain ⟨c, hc⟩ : ∃ c, l.head? = some c := by
    rcases l with _ | ⟨c, cs⟩
    · exact absurd rfl hne
    · exact ⟨c, rfl⟩
  obtain ⟨b, hbb⟩ : ∃ b, l.reverse.head? = some b := by
    rcases hr : l.reverse with _ | ⟨b, bs⟩
    · exact absurd hr hrevne
    · exact ⟨b, rfl⟩
  refine ⟨⟨c, hc, dropWhile_head_false he1 hc⟩, ⟨b, ?_, dropWhile_head_false he2 hbb⟩⟩
  rw [← List.head?_reverse]
  exact hbb

/-! ## Digits of block numbers and ends of rendered blocks -/

theorem getLast?_cons_ne {α : Type} (x : α) {p : List α} (h : p ≠ []) :
    (x :: p).getLast? = p.getLast? := by
  have : ([x] ++ p).getLast? = p.getLast? := List.getLast?_append_of_ne_nil [x] h
  simpa using this

theorem digitChar_digit (k : Nat) : (digitChar k).isDigit = true := by
  rcases k with _ | _ | _ | _ | _ | _ | _ | _ | _ | _ | k
  · decide
  · decide
  · decide
  · decide
  · decide
  · decide
  · decide
  · decide
  · decide
  · decide
  · show (List.getD _ (k + 10) '0').isDigit = true
    rw [List.getD_eq_default]
    · decide
    · simp

theorem natDigitsGo_mem : ∀ (fuel n : Nat) (acc : List Char) (c : Char),
    c ∈ natDigitsGo fuel n acc → c ∈ acc ∨ c.isDigit = true := by
  intro fuel
  induction fuel with
  | zero => intro n acc c hc; exact Or.inl hc
  | succ fuel ih =>
    intro n acc c hc
    simp only [natDigitsGo] at hc
    split at hc
    · rcases List.mem_cons.mp hc with rfl | hc
      · exact Or.inr (digitChar_digit n)
      · exact Or.inl hc
    · rcases ih (n / 10) _ c hc with hc | hc
      · rcases List.mem_cons.mp hc with rfl | hc
        · exact Or.inr (digitChar_digit (n % 10))
        · exact Or.inl hc
      · exact Or.inr hc

theorem natToChars_all_digit (n : Nat) : ∀ c ∈ natToChars n, c.isDigit = true := by
  intro c hc
  rcases natDigitsGo_mem (n + 1) n [] c hc with h | h
  · simp at h
  · exact h

theorem natDigitsGo_len : ∀ (fuel n : Nat) (acc : List Char),
    acc.length ≤ (natDigitsGo fuel n acc).length := by
  intro fuel
  induction fuel with
  | zero => intro n acc; exact le_rfl
  | succ fuel ih =>
    intro n acc
    simp only [natDigitsGo]
    split
    · simp
    · have := ih (n / 10) (digitChar (n % 10) :: acc)
      simp only [List.length_cons] at this
      omega

theorem natToChars_ne_nil (n : Nat) : natToChars n ≠ [] := by
  intro he
  have := congrArg List.length he
  unfold natToChars at this
  simp only [natDigitsGo, List.length_nil] at this
  split at this
  · simp at this
  · have h2 := natDigitsGo_len n (n / 10) [digitChar (n % 10)]
    simp only [List.length_cons, List.length_nil] at h2
    omega

theorem srtTs_chars {t : Ts} (h : validTs t = true) :
    ∀ c ∈ srtTs t, c.isDigit = true ∨ c = ':' ∨ c = ',' := by
  cases t with
  | short m1 m2 s1 s2 f1 f2 f3 =>
    simp only [validTs, Bool.and_eq_true] at h
    obtain ⟨⟨⟨⟨⟨⟨h1, h2⟩, h3⟩, h4⟩, h5⟩, h6⟩, h7⟩ := h
    intro c hc
    simp only [srtTs, List.mem_cons, List.not_mem_nil, or_false] at hc
    rcases hc with rfl | rfl | rfl | rfl | rfl | rfl | rfl | rfl | rfl | rfl | rfl | rfl <;>
      simp_all
  | full g1 g2 m1 m2 s1 s2 f1 f2 f3 =>
    simp only [validTs, Bool.and_eq_true] at h
    obtain ⟨⟨⟨⟨⟨⟨⟨⟨hg1, hg2⟩, h1⟩, h2⟩, h3⟩, h4⟩, h5⟩, h6⟩, h7⟩ := h
    intro c hc
    simp only [srtTs, List.mem_cons, List.not_mem_nil, or_false] at hc
    rcases hc with rfl | rfl | rfl | rfl | rfl | rfl | rfl | rfl | rfl | rfl | rfl | rfl
      | rfl | rfl | rfl <;> simp_all

theorem srtTs_no_break {t : Ts} (h : validTs t = true) :
    ∀ c ∈ srtTs t, c ≠ '\n' ∧ c ≠ '\r' := by
  intro c hc
  rcases srtTs_chars h c hc with hd | rfl | rfl
  · exact ⟨digit_ne_of hd (by decide), digit_ne_of hd (by decide)⟩
  · exact ⟨by decide, by decide⟩
  · exact ⟨by decide, by decide⟩

theorem srtTs_ne_nil (t : Ts) : srtTs t ≠ [] := by
  cases t <;> simp [srtTs]

theorem srtTs_head_digit {t : Ts} (h : validTs t = true) :
    ∃ a, (srtTs t).head? = some a ∧ a.isDigit = true := by
  cases t with
  | short m1 m2 s1 s2 f1 f2 f3 => exact ⟨'0', rfl, by decide⟩
  | full g1 g2 m1 m2 s1 s2 f1 f2 f3 =>
    simp only [validTs, Bool.and_eq_true] at h
    exact ⟨g1, rfl, h.1.1.1.1.1.1.1.1⟩

theorem srtTs_last_digit {t : Ts} (h : validTs t = true) :
    ∃ b, (srtTs t).getLast? = some b ∧ b.isDigit = true := by
  cases t with
  | short m1 m2 s1 s2 f1 f2 f3 =>
    simp only [validTs, Bool.and_eq_true] at h
    refine ⟨f3, ?_, h.2⟩
    simp [srtTs, List.getLast?_cons_cons]
  | full g1 g2 m1 m2 s1 s2 f1 f2 f3 =>
    simp only [validTs, Bool.and_eq_true] at h
    refine ⟨f3, ?_, h.2⟩
    simp [srtTs, List.getLast?_cons_cons]

theorem joinNL_ne_nil_of_head {l : List Char} (ls : List (List Char)) (h : l ≠ []) :
    joinNL (l :: ls) ≠ [] := by
  cases ls with
  | nil => exact h
  | cons l2 ls2 => simp [joinNL, h]

theorem joinNL_head? {l : List Char} (ls : List (List Char)) (h : l ≠ []) :
    (joinNL (l :: ls)).head? = l.head? := by
  cases ls with
  | nil => rfl
  | cons l2 ls2 =>
    show (l ++ '\n' :: joinNL (l2 :: ls2)).head? = l.head?
    exact List.head?_append_of_ne_nil _ h

theorem joinNL_getLast? : ∀ (ls : List (List Char)) (lst : List Char),
    ls.getLast? = some lst → lst ≠ [] → (joinNL ls).getLast? = lst.getLast? := by
  intro ls
  induction ls with
  | nil => intro lst h _; simp at h
  | cons l ls2 ih =>
    intro lst h hne
    cases ls2 with
    | nil =>
      have : l = lst := by simpa using h
      subst this
      rfl
    | cons l2 ls3 =>
      rw [List.getLast?_cons_cons] at h
      have hx : joinNL (l2 :: ls3) ≠ [] := by
        apply joinNL_ne_nil
        · simp
        · intro he
          rw [h] at he
          exact hne (by simpa using he)
      show (l ++ '\n' :: joinNL (l2 :: ls3)).getLast? = lst.getLast?
      rw [List.getLast?_append_of_ne_nil _ (by simp)]
      rw [getLast?_cons_ne _ hx]
      exact ih lst h hne

theorem isNonBlank_ne_nil {l : List Char} (h : isNonBlank l = true) : l ≠ [] := by
  intro he
  rw [he] at h
  simp [isNonBlank] at h

/-- The joined content of one rendered SRT cue starts and ends with a
non-whitespace character. -/
theorem cue_join_ends {c : Cue} (h : validCue c = true) :
    (∃ a, (joinNL (cueLinesSrt c)).head? = some a ∧ pyIsSpace a = false)
      ∧ ∃ b, (joinNL (cueLinesSrt c)).getLast? = some b ∧ pyIsSpace b = false := by
  obtain ⟨h1, h2, h3⟩ := validCue_parts h
  obtain ⟨a, ha, had⟩ := srtTs_head_digit h1
  have hbne : srtTs c.start ++ arrowL ++ srtTs c.stop ≠ [] := by
    simp [srtTs_ne_nil]
  constructor
  · refine ⟨a, ?_, digit_not_space had⟩
    rw [show cueLinesSrt c = (srtTs c.start ++ arrowL ++ srtTs c.stop) :: c.payload from rfl]
    rw [joinNL_head? _ hbne]
    rw [List.append_assoc, List.head?_append_of_ne_nil _ (srtTs_ne_nil c.start)]
    exact ha
  · rcases List.eq_nil_or_concat c.payload with hpe | ⟨ys, y, hpe⟩
    · obtain ⟨b, hb, hbd⟩ := srtTs_last_digit h2
      refine ⟨b, ?_, digit_not_space hbd⟩
      rw [show cueLinesSrt c = (srtTs c.start ++ arrowL ++ srtTs c.stop) :: c.payload from rfl]
      rw [hpe]
      show (srtTs c.start ++ arrowL ++ srtTs c.stop).getLast? = _
      rw [List.getLast?_append_of_ne_nil _ (srtTs_ne_nil c.stop)]
      exact hb
    · have hmem : y ∈ c.payload := by rw [hpe]; simp
      have hok := h3 y hmem
      obtain ⟨hnb, _, _, hstr, _⟩ := lineOk_parts hok
      have hlne : y ≠ [] := isNonBlank_ne_nil hnb
      obtain ⟨_, ⟨b, hb, hbs⟩⟩ := pyStrip_self_ends hstr hlne
      refine ⟨b, ?_, hbs⟩
      have hlast : (cueLinesSrt c).getLast? = some y := by
        rw [show cueLinesSrt c = (srtTs c.start ++ arrowL ++ srtTs c.stop) :: c.payload from rfl]
        rw [getLast?_cons_ne _ (by rw [hpe]; simp)]
        rw [hpe, List.concat_eq_append, List.getLast?_concat]
      rw [joinNL_getLast? _ y hlast hlne]
      exact hb

theorem block_content_strip {c : Cue} (h : validCue c = true) :
    pyStrip (joinNL (cueLinesSrt c)) = joinNL (cueLinesSrt c) := by
  obtain ⟨⟨a, ha, has⟩, ⟨b, hb, hbs⟩⟩ := cue_join_ends h
  exact pyStrip_eq_self ha hb has hbs

theorem mkBlock_valid {c : Cue} (h : validCue c = true) (k : Nat) :
    mkBlock k (cueLinesSrt c)
      = (natToChars k ++ '\n' :: joinNL (cueLinesSrt c)) ++ ['\n'] := by
  unfold mkBlock
  rw [block_content_strip h]

/-! ## Assembling the converted document -/

theorem groupsJoin_ne_nil : ∀ gs : List (List (List Char)), gs ≠ [] →
    (∀ g ∈ gs, g ≠ []) → groupsJoin gs ≠ [] := by
  intro gs
  induction gs with
  | nil => intro h _; exact absurd rfl h
  | cons g gs2 ih =>
    intro _ hall
    cases gs2 with
    | nil => exact hall g (List.mem_cons_self _ _)
    | cons g2 gs3 =>
      show g ++ [] :: groupsJoin (g2 :: gs3) ≠ []
      simp

theorem groupsJoin_getLast? : ∀ gs : List (List (List Char)), gs ≠ [] →
    (∀ g ∈ gs, g ≠ []) →
    ∃ g, gs.getLast? = some g ∧ (groupsJoin gs).getLast? = g.getLast? := by
  intro gs
  induction gs with
  | nil => intro h _; exact absurd rfl h
  | cons g gs2 ih =>
    intro _ hall
    cases gs2 with
    | nil => exact ⟨g, rfl, rfl⟩
    | cons g2 gs3 =>
      obtain ⟨g', hg', heq⟩ := ih (by simp)
        (fun x hx => hall x (List.mem_cons_of_mem _ hx))
      refine ⟨g', by rw [List.getLast?_cons_cons]; exact hg', ?_⟩
      show (g ++ [] :: groupsJoin (g2 :: gs3)).getLast? = _
      rw [List.getLast?_append_of_ne_nil _ (by simp)]
      rw [getLast?_cons_ne _ (groupsJoin_ne_nil _ (by simp)
        (fun x hx => hall x (List.mem_cons_of_mem _ hx)))]
      exact heq

theorem cueLinesSrt_ne_nil (c : Cue) : cueLinesSrt c ≠ [] := by
  simp [cueLinesSrt]

theorem cueLinesSrt_no_break {c : Cue} (h : validCue c = true) :
    ∀ l ∈ cueLinesSrt c, ∀ x ∈ l, x ≠ '\n' ∧ x ≠ '\r' := by
  obtain ⟨h1, h2, h3⟩ := validCue_parts h
  intro l hl x hx
  simp only [cueLinesSrt, List.mem_cons] at hl
  rcases hl with rfl | hl
  · simp only [List.append_assoc, List.mem_append] at hx
    rcases hx with hx | hx | hx
    · exact srtTs_no_break h1 x hx
    · simp only [arrowL, List.mem_cons, List.not_mem_nil, or_false] at hx
      rcases hx with rfl | rfl | rfl | rfl | rfl <;> exact ⟨by decide, by decide⟩
    · exact srtTs_no_break h2 x hx
  · have := (lineOk_parts (h3 l hl)).2.2.2.2 x hx
    simp only [lineBreakish, Bool.or_eq_false_iff] at this
    constructor
    · simpa using this.1.1.1.1.1.1.1.1.1
    · simpa using this.1.1.1.1.1.1.1.1.2

theorem srtLines_no_break {cues : List Cue} (h : cues.all validCue = true) :
    ∀ l ∈ groupsJoin (cues.map cueLinesSrt), ∀ x ∈ l, x ≠ '\n' ∧ x ≠ '\r' := by
  intro l hl
  rcases groupsJoin_mem hl with rfl | ⟨g, hg, hx⟩
  · intro x hx; simp at hx
  · obtain ⟨c, hc, rfl⟩ := List.mem_map.mp hg
    have hvc : validCue c = true := by
      have := List.all_eq_true.mp h c hc
      simpa using this
    exact cueLinesSrt_no_break hvc l hx

theorem srtLines_getLast_ne_blank {cues : List Cue} (h : cues.all validCue = true)
    (hne : cues ≠ []) :
    (groupsJoin (cues.map cueLinesSrt)).getLast? ≠ some [] := by
  obtain ⟨g, hg, heq⟩ := groupsJoin_getLast? (cues.map cueLinesSrt)
    (by simpa using hne)
    (by
      intro g hg
      obtain ⟨c, _, rfl⟩ := List.mem_map.mp hg
      exact cueLinesSrt_ne_nil c)
  obtain ⟨c, hc, rfl⟩ := List.mem_map.mp (List.mem_of_mem_getLast? hg)
  have hvc : validCue c = true := by
    have := List.all_eq_true.mp h c hc
    simpa using this
  obtain ⟨_, _, h3⟩ := validCue_parts hvc
  rw [heq]
  rcases List.eq_nil_or_concat c.payload with hpe | ⟨ys, y, hpe⟩
  · rw [show cueLinesSrt c = (srtTs c.start ++ arrowL ++ srtTs c.stop) :: c.payload from rfl,
      hpe]
    intro he
    have hb : srtTs c.start ++ arrowL ++ srtTs c.stop = [] := by simpa using he
    rw [List.append_assoc] at hb
    exact srtTs_ne_nil c.start (List.append_eq_nil.mp hb).1
  · rw [show cueLinesSrt c = (srtTs c.start ++ arrowL ++ srtTs c.stop) :: c.payload from rfl]
    rw [getLast?_cons_ne _ (by rw [hpe, List.concat_eq_append]; simp)]
    rw [hpe, List.concat_eq_append, List.getLast?_concat]
    intro he
    have hy : y = [] := by simpa using he
    have hok := h3 y (by rw [hpe]; simp)
    have := isNonBlank_ne_nil (lineOk_parts hok).1
    exact this hy

theorem loop_cues_start : ∀ (cs : List Cue), cs.all validCue = true → ∀ k : Nat,
    srtBlocksLoop (groupsJoin (cs.map cueLinesSrt)) k []
      = cs.enum.map (fun p => mkBlock (k + p.1) (cueLinesSrt p.2)) := by
  intro cs hv k
  cases cs with
  | nil => rfl
  | cons c cs' =>
    have hc : validCue c = true := by
      have := List.all_eq_true.mp hv c (List.mem_cons_self _ _)
      simpa using this
    have hcs' : cs'.all validCue = true := by
      rw [List.all_eq_true]
      intro x hx
      exact List.all_eq_true.mp hv x (List.mem_cons_of_mem _ hx)
    have harrow : hasSub arrowL (srtTs c.start ++ arrowL ++ srtTs c.stop) = true :=
      boundary_hasArrow c.start c.stop
    cases cs' with
    | nil =>
      show srtBlocksLoop ((srtTs c.start ++ arrowL ++ srtTs c.stop) :: c.payload) k [] = _
      simp only [srtBlocksLoop]
      rw [harrow]
      simp only [if_true, List.isEmpty_nil, if_true]
      have := loop_accum c.payload [] k
        [srtTs c.start ++ arrowL ++ srtTs c.stop] (cueLinesSrt_payload_ok hc)
      rw [show c.payload ++ ([] : List (List Char)) = c.payload from by simp] at this
      rw [this]
      show srtBlocksLoop [] k (cueLinesSrt c) = _
      simp only [srtBlocksLoop]
      rw [if_neg (by simp [cueLinesSrt, List.isEmpty_iff])]
      simp [List.enum_cons']
    | cons c2 cs'' =>
      show srtBlocksLoop ((srtTs c.start ++ arrowL ++ srtTs c.stop)
        :: (c.payload ++ [] :: groupsJoin ((c2 :: cs'').map cueLinesSrt))) k [] = _
      simp only [srtBlocksLoop]
      rw [harrow]
      simp only [if_true, List.isEmpty_nil, if_true]
      rw [loop_accum c.payload _ k _ (cueLinesSrt_payload_ok hc)]
      rw [loop_skip_blank]
      rw [show ([srtTs c.start ++ arrowL ++ srtTs c.stop] ++ c.payload) = cueLinesSrt c
        from rfl]
      rw [loop_cues (c2 :: cs'') hcs' k (cueLinesSrt c) (by simp [cueLinesSrt])]
      rw [List.enum_cons' c (c2 :: cs''), List.enum_cons' c2 cs'']
      simp only [List.map_cons, List.map_map, Prod.map_fst, Prod.map_snd, id_eq,
        Function.comp_apply, Function.comp]
      simp only [Nat.add_zero, Nat.zero_add]
      congr 2
      rw [List.map_eq_map_iff]
      intro p _
      simp only [Function.comp_apply, Prod.map_fst, Prod.map_snd, id_eq]
      have harith : k + 1 + (p.1 + 1) = k + (p.1 + 1 + 1) := by omega
      rw [harith]

theorem blocks_of_valid {d : VttDoc} (h : validDoc d = true) :
    srt_blocks (renderVtt d)
      = d.cues.enum.map (fun p => mkBlock (1 + p.1) (cueLinesSrt p.2)) := by
  simp only [validDoc, Bool.and_eq_true] at h
  obtain ⟨hh, hcues⟩ := h
  simp only [headerOk, Bool.and_eq_true, Bool.not_eq_true', List.all_eq_true] at hh
  unfold srt_blocks
  rw [show renderVtt d = webvttL ++ d.header ++ '\n' :: '\n' :: joinNL (docLines d)
    from rfl]
  rw [stripHeader_render d.header (joinNL (docLines d))
    (fun c hc => by simpa using hh.1 c hc) hh.2]
  rw [body_sub hcues]
  cases hce : d.cues with
  | nil =>
    show srtBlocksLoop (splitLines (joinNL (groupsJoin []))) 1 [] = _
    rfl
  | cons c1 cs =>
    rw [← hce]
    rw [splitLines_joinNL _ (srtLines_no_break hcues)
      (srtLines_getLast_ne_blank hcues (by rw [hce]; simp))]
    exact loop_cues_start d.cues hcues 1

theorem joinNL_map_nl : ∀ bs : List (List Char), bs ≠ [] →
    joinNL (bs.map (fun b => b ++ ['\n'])) = nlnlJoin bs ++ ['\n'] := by
  intro bs
  induction bs with
  | nil => intro h; exact absurd rfl h
  | cons b bs2 ih =>
    intro _
    cases bs2 with
    | nil => rfl
    | cons b2 bs3 =>
      show (b ++ ['\n']) ++ '\n' :: joinNL ((b2 :: bs3).map (fun b => b ++ ['\n'])) = _
      rw [ih (by simp)]
      show (b ++ ['\n']) ++ '\n' :: (nlnlJoin (b2 :: bs3) ++ ['\n'])
        = (b ++ '\n' :: '\n' :: nlnlJoin (b2 :: bs3)) ++ ['\n']
      simp

theorem nlnlJoin_head? {b : List Char} (bs : List (List Char)) (h : b ≠ []) :
    (nlnlJoin (b :: bs)).head? = b.head? := by
  cases bs with
  | nil => rfl
  | cons b2 bs2 =>
    show (b ++ '\n' :: '\n' :: nlnlJoin (b2 :: bs2)).head? = b.head?
    exact List.head?_append_of_ne_nil _ h

theorem nlnlJoin_last_ends : ∀ bs : List (List Char), bs ≠ [] →
    (∀ b ∈ bs, ∃ e, b.getLast? = some e ∧ pyIsSpace e = false) →
    ∃ e, (nlnlJoin bs).getLast? = some e ∧ pyIsSpace e = false := by
  intro bs
  induction bs with
  | nil => intro h _; exact absurd rfl h
  | cons b bs2 ih =>
    intro _ hall
    cases bs2 with
    | nil => exact hall b (List.mem_cons_self _ _)
    | cons b2 bs3 =>
      obtain ⟨e, he, hes⟩ := ih (by simp)
        (fun x hx => hall x (List.mem_cons_of_mem _ hx))
      have hne : nlnlJoin (b2 :: bs3) ≠ [] := by
        intro hz
        rw [hz] at he
        simp at he
      refine ⟨e, ?_, hes⟩
      show (b ++ '\n' :: '\n' :: nlnlJoin (b2 :: bs3)).getLast? = some e
      rw [List.getLast?_append_of_ne_nil _ (by simp)]
      rw [getLast?_cons_ne _ (by simp), getLast?_cons_ne _ hne]
      exact he

theorem body_ends {c : Cue} (h : validCue c = true) (k : Nat) :
    ∃ e, (natToChars k ++ '\n' :: joinNL (cueLinesSrt c)).getLast? = some e
      ∧ pyIsSpace e = false := by
  obtain ⟨_, ⟨b, hb, hbs⟩⟩ := cue_join_ends h
  refine ⟨b, ?_, hbs⟩
  rw [List.getLast?_append_of_ne_nil _ (by simp)]
  rw [getLast?_cons_ne _ (by intro he; rw [he] at hb; simp at hb)]
  exact hb

/-- The conversion theorem: on every valid rendered WebVTT document,
`vtt_to_srt` produces exactly the SRT serialization of the same cue
sequence. -/
theorem convert_valid {d : VttDoc} (h : validDoc d = true) :
    vtt_to_srt (renderVtt d) = renderSrt d := by
  have hcues : d.cues.all validCue = true := by
    simp only [validDoc, Bool.and_eq_true] at h
    exact h.2
  unfold vtt_to_srt
  rw [blocks_of_valid h]
  cases hce : d.cues with
  | nil =>
    show pyStrip (joinNL (([] : List (Nat × Cue)).map _)) = renderSrt d
    unfold renderSrt
    rw [hce]
    rfl
  | cons c1 cs =>
    rw [← hce]
    have hmap : d.cues.enum.map (fun p => mkBlock (1 + p.1) (cueLinesSrt p.2))
        = (d.cues.enum.map (fun p => natToChars (p.1 + 1)
            ++ '\n' :: joinNL (cueLinesSrt p.2))).map (fun b => b ++ ['\n']) := by
      rw [List.map_map]
      rw [List.map_eq_map_iff]
      intro p hp
      have hvc : validCue p.2 = true := by
        have := List.all_eq_true.mp hcues p.2 (List.snd_mem_of_mem_enum hp)
        simpa using this
      simp only [Function.comp_apply]
      rw [mkBlock_valid hvc, Nat.add_comm 1 p.1]
    rw [hmap]
    rw [joinNL_map_nl _ (by rw [hce]; simp [List.enum_cons'])]
    have hrs : renderSrt d = nlnlJoin (d.cues.enum.map (fun p => natToChars (p.1 + 1)
        ++ '\n' :: joinNL (cueLinesSrt p.2))) := rfl
    rw [← hrs]
    have hv1 : validCue c1 = true := by
      have := List.all_eq_true.mp hcues c1 (by rw [hce]; exact List.mem_cons_self _ _)
      simpa using this
    obtain ⟨e, he, hes⟩ := nlnlJoin_last_ends
      (d.cues.enum.map (fun p => natToChars (p.1 + 1) ++ '\n' :: joinNL (cueLinesSrt p.2)))
      (by rw [hce]; simp [List.enum_cons'])
      (by
        intro b hb
        obtain ⟨p, hp, rfl⟩ := List.mem_map.mp hb
        have hvc : validCue p.2 = true := by
          have := List.all_eq_true.mp hcues p.2 (List.snd_mem_of_mem_enum hp)
          simpa using this
        exact body_ends hvc (p.1 + 1))
    have hhead : (nlnlJoin (d.cues.enum.map (fun p => natToChars (p.1 + 1)
        ++ '\n' :: joinNL (cueLinesSrt p.2)))).head? = some '1' := by
      rw [hce, List.enum_cons', List.map_cons]
      rw [nlnlJoin_head? _ (by simp [natToChars_ne_nil])]
      rw [List.head?_append_of_ne_nil _ (natToChars_ne_nil 1)]
      rfl
    rw [← hrs] at hhead he
    exact pyStrip_drop_last_nl hhead he (by decide) hes

/-! ## Reading the block structure back from the output -/

theorem joinNL_append : ∀ (a b : List (List Char)), a ≠ [] → b ≠ [] →
    joinNL (a ++ b) = joinNL a ++ '\n' :: joinNL b := by
  intro a
  induction a with
  | nil => intro b h _; exact absurd rfl h
  | cons x a' ih =>
    intro b _ hb
    cases a' with
    | nil =>
      rcases b with _ | ⟨y, ys⟩
      · exact absurd rfl hb
      · show joinNL (x :: y :: ys) = x ++ '\n' :: joinNL (y :: ys)
        rfl
    | cons x2 a'' =>
      show joinNL (x :: x2 :: (a'' ++ b)) = _
      rw [show joinNL (x :: x2 :: (a'' ++ b)) = x ++ '\n' :: joinNL (x2 :: (a'' ++ b))
        from rfl]
      rw [show (x2 :: (a'' ++ b)) = (x2 :: a'') ++ b from rfl]
      rw [ih b (by simp) hb]
      show _ = (x ++ '\n' :: joinNL (x2 :: a'')) ++ '\n' :: joinNL b
      simp

theorem nlnlJoin_map_joinNL : ∀ gs : List (List (List Char)),
    (∀ g ∈ gs, g ≠ []) →
    nlnlJoin (gs.map joinNL) = joinNL (groupsJoin gs) := by
  intro gs
  induction gs with
  | nil => intro _; rfl
  | cons g gs2 ih =>
    intro hall
    cases gs2 with
    | nil => rfl
    | cons g2 gs3 =>
      show joinNL g ++ '\n' :: '\n' :: nlnlJoin ((g2 :: gs3).map joinNL) = _
      rw [ih (fun x hx => hall x (List.mem_cons_of_mem _ hx))]
      show _ = joinNL (g ++ [] :: groupsJoin (g2 :: gs3))
      rw [joinNL_append g ([] :: groupsJoin (g2 :: gs3))
        (hall g (List.mem_cons_self _ _)) (by simp)]
      have hG : groupsJoin (g2 :: gs3) ≠ [] :=
        groupsJoin_ne_nil _ (by simp) (fun x hx => hall x (List.mem_cons_of_mem _ hx))
      rcases he : groupsJoin (g2 :: gs3) with _ | ⟨z, zs⟩
      · exact absurd he hG
      · rfl

theorem splitBlankGo_step {l : List Char} (h : l ≠ []) (acc : List (List Char))
    (ls : List (List Char)) :
    splitBlankGo acc (l :: ls) = splitBlankGo (l :: acc) ls := by
  rcases l with _ | ⟨c, cs⟩
  · exact absurd rfl h
  · rcases ls with _ | ⟨x, xs⟩ <;> simp [splitBlankGo]

theorem splitBlankGo_last : ∀ (g : List (List Char)) (acc : List (List Char)),
    (∀ l ∈ g, l ≠ []) → splitBlankGo acc g = [acc.reverse ++ g] := by
  intro g
  induction g with
  | nil => intro acc _; simp [splitBlankGo]
  | cons l g' ih =>
    intro acc hg
    rw [splitBlankGo_step (hg l (List.mem_cons_self _ _))]
    rw [ih (l :: acc) (fun x hx => hg x (List.mem_cons_of_mem _ hx))]
    simp

theorem splitBlankGo_group : ∀ (g : List (List Char)) (acc X : List (List Char)),
    (∀ l ∈ g, l ≠ []) → X ≠ [] →
    splitBlankGo acc (g ++ [] :: X) = (acc.reverse ++ g) :: splitBlankGo [] X := by
  intro g
  induction g with
  | nil =>
    intro acc X _ hX
    rcases X with _ | ⟨x, xs⟩
    · exact absurd rfl hX
    · simp [splitBlankGo]
  | cons l g' ih =>
    intro acc X hg hX
    rw [List.cons_append, splitBlankGo_step (hg l (List.mem_cons_self _ _))]
    rw [ih (l :: acc) X (fun x hx => hg x (List.mem_cons_of_mem _ hx)) hX]
    simp

theorem splitBlankGo_groupsJoin : ∀ gs : List (List (List Char)), gs ≠ [] →
    (∀ g ∈ gs, g ≠ [] ∧ ∀ l ∈ g, l ≠ []) →
    splitBlankGo [] (groupsJoin gs) = gs := by
  intro gs
  induction gs with
  | nil => intro h _; exact absurd rfl h
  | cons g gs2 ih =>
    intro _ hall
    cases gs2 with
    | nil =>
      show splitBlankGo [] g = [g]
      rw [splitBlankGo_last g [] (hall g (List.mem_cons_self _ _)).2]
      simp
    | cons g2 gs3 =>
      show splitBlankGo [] (g ++ [] :: groupsJoin (g2 :: gs3)) = _
      have hG : groupsJoin (g2 :: gs3) ≠ [] :=
        groupsJoin_ne_nil _ (by simp)
          (fun x hx => (hall x (List.mem_cons_of_mem _ hx)).1)
      rw [splitBlankGo_group g [] _ (hall g (List.mem_cons_self _ _)).2 hG]
      rw [ih (by simp) (fun x hx => hall x (List.mem_cons_of_mem _ hx))]
      simp

theorem cueLinesSrt_getLast_ne_blank {c : Cue} (h : validCue c = true) :
    (cueLinesSrt c).getLast? ≠ some [] := by
  obtain ⟨_, _, h3⟩ := validCue_parts h
  rcases List.eq_nil_or_concat c.payload with hpe | ⟨ys, y, hpe⟩
  · rw [show cueLinesSrt c = (srtTs c.start ++ arrowL ++ srtTs c.stop) :: c.payload from rfl,
      hpe]
    intro he
    have hb : srtTs c.start ++ arrowL ++ srtTs c.stop = [] := by simpa using he
    rw [List.append_assoc] at hb
    exact srtTs_ne_nil c.start (List.append_eq_nil.mp hb).1
  · rw [show cueLinesSrt c = (srtTs c.start ++ arrowL ++ srtTs c.stop) :: c.payload from rfl]
    rw [getLast?_cons_ne _ (by rw [hpe, List.concat_eq_append]; simp)]
    rw [hpe, List.concat_eq_append, List.getLast?_concat]
    intro he
    have hy : y = [] := by simpa using he
    have hok := h3 y (by rw [hpe, List.concat_eq_append]; simp)
    exact isNonBlank_ne_nil (lineOk_parts hok).1 hy

theorem blockLines_lines_ok {c : Cue} (h : validCue c = true) (k : Nat) :
    ∀ l ∈ natToChars k :: cueLinesSrt c, l ≠ [] ∧ ∀ x ∈ l, x ≠ '\n' ∧ x ≠ '\r' := by
  intro l hl
  rcases List.mem_cons.mp hl with rfl | hl
  · refine ⟨natToChars_ne_nil k, ?_⟩
    intro x hx
    have hd := natToChars_all_digit k x hx
    exact ⟨digit_ne_of hd (by decide), digit_ne_of hd (by decide)⟩
  · constructor
    · obtain ⟨_, _, h3⟩ := validCue_parts h
      simp only [cueLinesSrt, List.mem_cons] at hl
      rcases hl with rfl | hl
      · intro he
        have hb := congrArg List.length he
        simp only [List.length_append, List.length_nil] at hb
        have := srtTs_ne_nil c.start
        rcases hs : srtTs c.start with _ | ⟨z, zs⟩
        · exact this hs
        · rw [hs] at hb; simp at hb
      · exact isNonBlank_ne_nil (lineOk_parts (h3 l hl)).1
    · exact cueLinesSrt_no_break h l hl

theorem blocksOf_renderSrt {d : VttDoc} (h : validDoc d = true) :
    blocksOf (renderSrt d)
      = d.cues.enum.map (fun p => natToChars (p.1 + 1) :: cueLinesSrt p.2) := by
  have hcues : d.cues.all validCue = true := by
    simp only [validDoc, Bool.and_eq_true] at h
    exact h.2
  have hvalid : ∀ p ∈ d.cues.enum, validCue p.2 = true := by
    intro p hp
    have := List.all_eq_true.mp hcues p.2 (List.snd_mem_of_mem_enum hp)
    simpa using this
  cases hce : d.cues with
  | nil =>
    unfold blocksOf renderSrt
    rw [hce]
    rfl
  | cons c1 cs =>
    rw [← hce]
    have hgne : ∀ g ∈ d.cues.enum.map (fun p => natToChars (p.1 + 1) :: cueLinesSrt p.2),
        g ≠ [] := by
      intro g hg
      obtain ⟨p, _, rfl⟩ := List.mem_map.mp hg
      simp
    have hbody : renderSrt d = joinNL (groupsJoin
        (d.cues.enum.map (fun p => natToChars (p.1 + 1) :: cueLinesSrt p.2))) := by
      unfold renderSrt
      rw [← nlnlJoin_map_joinNL _ hgne]
      rw [List.map_map]
      rfl
    rw [hbody]
    unfold blocksOf
    have hlok : ∀ g ∈ d.cues.enum.map (fun p => natToChars (p.1 + 1) :: cueLinesSrt p.2),
        ∀ l ∈ g, l ≠ [] ∧ ∀ x ∈ l, x ≠ '\n' ∧ x ≠ '\r' := by
      intro g hg
      obtain ⟨p, hp, rfl⟩ := List.mem_map.mp hg
      exact blockLines_lines_ok (hvalid p hp) (p.1 + 1)
    have hne : d.cues.enum.map (fun p => natToChars (p.1 + 1) :: cueLinesSrt p.2) ≠ [] := by
      rw [hce]
      simp [List.enum_cons']
    have hsl : splitLines (joinNL (groupsJoin
        (d.cues.enum.map (fun p => natToChars (p.1 + 1) :: cueLinesSrt p.2))))
        = groupsJoin (d.cues.enum.map (fun p => natToChars (p.1 + 1) :: cueLinesSrt p.2)) := by
      apply splitLines_joinNL
      · intro l hl
        rcases groupsJoin_mem hl with rfl | ⟨g, hg, hx⟩
        · intro x hx; simp at hx
        · exact fun x hxx => (hlok g hg l hx).2 x hxx
      · obtain ⟨g, hg, heq⟩ := groupsJoin_getLast? _ hne hgne
        rw [heq]
        obtain ⟨p, hp, rfl⟩ := List.mem_map.mp (List.mem_of_mem_getLast? hg)
        rw [getLast?_cons_ne _ (cueLinesSrt_ne_nil p.2)]
        exact cueLinesSrt_getLast_ne_blank (hvalid p hp)
    rw [hsl]
    rcases hgj : groupsJoin (d.cues.enum.map
        (fun p => natToChars (p.1 + 1) :: cueLinesSrt p.2)) with _ | ⟨z, zs⟩
    · exact absurd hgj (groupsJoin_ne_nil _ hne hgne)
    · rw [hgj]
      show splitBlankGo [] (z :: zs) = _
      rw [← hgj]
      exact splitBlankGo_groupsJoin _ hne
        (fun g hg => ⟨hgne g hg, fun l hl => (hlok g hg l hl).1⟩)

/-! ## Sequence numbering on arbitrary input -/

theorem firstLine_append_nl {a : List Char} (b : List Char) (h : ∀ c ∈ a, c ≠ '\n') :
    firstLine (a ++ '\n' :: b) = a := by
  induction a with
  | nil => simp [firstLine, List.takeWhile]
  | cons c a' ih =>
    have hc := h c (List.mem_cons_self _ _)
    show List.takeWhile _ (c :: (a' ++ '\n' :: b)) = c :: a'
    rw [List.takeWhile_cons]
    rw [if_pos (by simpa using hc)]
    have := ih (fun x hx => h x (List.mem_cons_of_mem _ hx))
    rw [show List.takeWhile (fun x => x ≠ '\n') (a' ++ '\n' :: b)
      = firstLine (a' ++ '\n' :: b) from rfl, this]

theorem firstLine_mkBlock (k : Nat) (cur : List (List Char)) :
    firstLine (mkBlock k cur) = natToChars k := by
  unfold mkBlock
  rw [show natToChars k ++ '\n' :: pyStrip (joinNL cur) ++ ['\n']
    = natToChars k ++ '\n' :: (pyStrip (joinNL cur) ++ ['\n']) from by simp]
  exact firstLine_append_nl _ (fun c hc => digit_ne_nl (natToChars_all_digit k c hc))

theorem loop_numbering : ∀ (ls : List (List Char)) (k : Nat) (cur : List (List Char)),
    (srtBlocksLoop ls k cur).map firstLine
      = (List.range' k (srtBlocksLoop ls k cur).length).map natToChars := by
  intro ls
  induction ls with
  | nil =>
    intro k cur
    rw [show srtBlocksLoop [] k cur = (if cur.isEmpty then [] else [mkBlock k cur])
      from rfl]
    by_cases hc : cur.isEmpty
    · rw [if_pos hc]; rfl
    · rw [if_neg hc]
      simp [firstLine_mkBlock, List.range']
  | cons l ls' ih =>
    intro k cur
    show (srtBlocksLoop (l :: ls') k cur).map firstLine = _
    simp only [srtBlocksLoop]
    by_cases ha : hasSub arrowL l
    · rw [if_pos ha]
      by_cases hc : cur.isEmpty
      · rw [if_pos hc]
        exact ih k [l]
      · rw [if_neg hc]
        simp only [List.map_cons, List.length_cons, firstLine_mkBlock]
        rw [ih (k + 1) [l]]
        rfl
    · rw [if_neg ha]
      by_cases hb : isNonBlank l
      · rw [if_pos hb]; exact ih k (cur ++ [l])
      · rw [if_neg hb]; exact ih k cur

/-! ## Inputs with no boundary line -/

theorem mem_dropWhile_of_not {p : Char → Bool} {x : List Char} {c : Char}
    (hc : c ∈ x) (hp : p c = false) : c ∈ x.dropWhile p := by
  have hsplit := List.takeWhile_append_dropWhile p x
  rcases List.mem_append.mp (by rw [hsplit]; exact hc) with hmem | hmem
  · have := List.mem_takeWhile_imp hmem
    rw [this] at hp
    exact absurd hp (by simp)
  · exact hmem

theorem dropWhile_cons_head {p : Char → Bool} : ∀ (X : List Char) {a : Char}
    {zs : List Char}, X.dropWhile p = a :: zs → p a = false := by
  intro X
  induction X with
  | nil => intro a zs h; simp [List.dropWhile] at h
  | cons x xs ih =>
    intro a zs h
    rw [List.dropWhile_cons] at h
    by_cases hp : p x = true
    · rw [if_pos hp] at h
      exact ih h
    · rw [if_neg hp] at h
      injection h with h1 _
      rw [← h1]
      simpa using hp

theorem suffix_getLast? {z w : List Char} (h : z <:+ w) (hz : z ≠ []) :
    z.getLast? = w.getLast? := by
  obtain ⟨t, rfl⟩ := h
  rw [List.getLast?_append_of_ne_nil _ hz]

theorem pyStrip_last_nonspace {x : List Char} {c : Char} (hc : c ∈ x)
    (hcs : pyIsSpace c = false) :
    ∃ b, (pyStrip x).getLast? = some b ∧ pyIsSpace b = false := by
  have h1 : c ∈ x.dropWhile pyIsSpace := mem_dropWhile_of_not hc hcs
  have h2 : c ∈ (x.dropWhile pyIsSpace).reverse.dropWhile pyIsSpace :=
    mem_dropWhile_of_not (by simpa using h1) hcs
  rcases hz : (x.dropWhile pyIsSpace).reverse.dropWhile pyIsSpace with _ | ⟨b, zs⟩
  · rw [hz] at h2
    simp at h2
  · refine ⟨b, ?_, dropWhile_cons_head _ hz⟩
    unfold pyStrip
    rw [hz, List.getLast?_reverse]
    rfl

theorem pyStrip_head_nonspace {x : List Char} {c : Char} (hc : c ∈ x)
    (hcs : pyIsSpace c = false) :
    ∃ a, (pyStrip x).head? = some a ∧ pyIsSpace a = false := by
  have h1 : c ∈ x.dropWhile pyIsSpace := mem_dropWhile_of_not hc hcs
  rcases hy : x.dropWhile pyIsSpace with _ | ⟨a, ys⟩
  · rw [hy] at h1
    simp at h1
  · refine ⟨a, ?_, dropWhile_cons_head _ hy⟩
    have h2 : c ∈ (x.dropWhile pyIsSpace).reverse.dropWhile pyIsSpace :=
      mem_dropWhile_of_not (by simpa using h1) hcs
    have hzne : (x.dropWhile pyIsSpace).reverse.dropWhile pyIsSpace ≠ [] := by
      intro he
      rw [he] at h2
      simp at h2
    unfold pyStrip
    rw [List.head?_reverse]
    rw [suffix_getLast? (List.dropWhile_suffix pyIsSpace) hzne]
    rw [List.getLast?_reverse, hy]
    rfl

theorem mem_joinNL {l : List Char} {c : Char} : ∀ (ls : List (List Char)),
    l ∈ ls → c ∈ l → c ∈ joinNL ls := by
  intro ls
  induction ls with
  | nil => intro h _; simp at h
  | cons x ls2 ih =>
    intro hl hc
    cases ls2 with
    | nil =>
      have : l = x := by simpa using hl
      subst this
      exact hc
    | cons y ls3 =>
      show c ∈ x ++ '\n' :: joinNL (y :: ls3)
      rcases List.mem_cons.mp hl with rfl | hl
      · exact List.mem_append_left _ hc
      · exact List.mem_append_right _ (List.mem_cons_of_mem _ (ih hl hc))

theorem loop_no_arrow : ∀ (ls : List (List Char)) (k : Nat) (cur : List (List Char)),
    (∀ l ∈ ls, hasSub arrowL l = false) →
    srtBlocksLoop ls k cur
      = if (cur ++ ls.filter isNonBlank).isEmpty then []
        else [mkBlock k (cur ++ ls.filter isNonBlank)] := by
  intro ls
  induction ls with
  | nil =>
    intro k cur _
    show srtBlocksLoop [] k cur = _
    simp [srtBlocksLoop]
  | cons l ls' ih =>
    intro k cur hall
    have ha := hall l (List.mem_cons_self _ _)
    show srtBlocksLoop (l :: ls') k cur = _
    simp only [srtBlocksLoop]
    rw [ha]
    simp only [Bool.false_eq_true, if_false]
    by_cases hb : isNonBlank l
    · rw [if_pos hb]
      rw [ih k (cur ++ [l]) (fun x hx => hall x (List.mem_cons_of_mem _ hx))]
      rw [List.filter_cons_of_pos hb]
      rw [List.append_assoc]
      rfl
    · rw [if_neg hb]
      rw [ih k cur (fun x hx => hall x (List.mem_cons_of_mem _ hx))]
      rw [List.filter_cons_of_neg (by simpa using hb)]

/-! ## Claims C1, C4, C7, C10 -/

/-- The spec's example document as a `VttDoc` (it renders to `exampleVtt`). -/
def exampleDoc : VttDoc :=
  ⟨[], [⟨.short '0' '0' '0' '0' '0' '0' '0', .short '0' '0' '0' '2' '5' '0' '0',
      ["Hello world".data]⟩,
    ⟨.short '0' '0' '0' '2' '5' '0' '0', .short '0' '0' '0' '5' '0' '0' '0',
      ["Second line".data]⟩]⟩

example : renderVtt exampleDoc = exampleVtt := by decide

/-- A payload line that is valid by the spec's notion of a WebVTT cue
payload: non-blank, free of line-break characters, and not itself a
boundary line. WebVTT places no constraint on timestamp-like substrings
inside payload text, so none is imposed here (contrast `lineOk`, which
additionally demands stability under the converter's passes). -/
def specLineOk (l : List Char) : Bool :=
  isNonBlank l && !hasSub arrowL l && l.all (fun c => !lineBreakish c)

def specValidCue (c : Cue) : Bool :=
  validTs c.start && validTs c.stop && c.payload != [] && c.payload.all specLineOk

def specValidDoc (d : VttDoc) : Bool :=
  headerOk d.header && d.cues.all specValidCue

/-- A valid WebVTT document whose payload text happens to contain
timestamp-shaped substrings. -/
def lapDoc : VttDoc :=
  ⟨[], [⟨.short '0' '0' '0' '0' '0' '0' '0', .short '0' '0' '0' '2' '5' '0' '0',
      ["Lap time 1:23.456".data, "see 12:34.567 here".data]⟩]⟩

/-- C1 (code bug): the converter's timestamp rewrite is a whole-text
substitution, so it does not leave cue payloads intact: `lapDoc` is a
valid WebVTT document (digit timestamps, non-blank break-free payload
lines, well-formed header), yet `vtt_to_srt` rewrites the payload text
itself — `"Lap time 1:23.456"` becomes `"Lap time 1:23,456"` and
`"see 12:34.567 here"` becomes `"see 00:12:34,567 here"` — so the
output's payload lines differ from the input cue's, contradicting the
claim that payload text is preserved exactly for every valid document. -/
theorem c1_payload_not_preserved :
    specValidDoc lapDoc = true
    ∧ renderVtt lapDoc
        = "WEBVTT\n\n00:00.000 --> 00:02.500\nLap time 1:23.456\nsee 12:34.567 here".data
    ∧ vtt_to_srt (renderVtt lapDoc)
        = "1\n00:00:00,000 --> 00:00:02,500\nLap time 1:23,456\nsee 00:12:34,567 here".data
    ∧ srtCuePayloads (vtt_to_srt (renderVtt lapDoc)) ≠ lapDoc.cues.map Cue.payload := by
  exact ⟨by decide, by decide, by decide, by decide⟩

/-- C4: the sequence-number lines of the blocks built by `srt_blocks` are
the decimal renderings of the contiguous integers starting at 1, in
emission order, for arbitrary input (first conjunct); and on any valid
rendered document the output blocks are exactly the input cues in input
order, block `i` carrying number `i` (second conjunct). -/
theorem c4_contiguous_numbering_in_order (s : List Char) (d : VttDoc)
    (h : validDoc d = true) :
    (srt_blocks s).map firstLine
      = (List.range' 1 (srt_blocks s).length).map natToChars
    ∧ blocksOf (vtt_to_srt (renderVtt d))
        = d.cues.enum.map (fun p => natToChars (p.1 + 1) :: cueLinesSrt p.2) := by
  constructor
  · unfold srt_blocks
    exact loop_numbering _ 1 []
  · rw [convert_valid h, blocksOf_renderSrt h]

theorem c4_contiguous_numbering_in_order_witness :
    validDoc exampleDoc = true
    ∧ ((srt_blocks "junk\n\n00:01.000 --> 00:02.000\nfirst\n\nalso --> here\nsecond".data).map firstLine
        = (List.range' 1 (srt_blocks "junk\n\n00:01.000 --> 00:02.000\nfirst\n\nalso --> here\nsecond".data).length).map natToChars
      ∧ blocksOf (vtt_to_srt (renderVtt exampleDoc))
          = exampleDoc.cues.enum.map (fun p => natToChars (p.1 + 1) :: cueLinesSrt p.2)) :=
  ⟨by decide,
    c4_contiguous_numbering_in_order
      "junk\n\n00:01.000 --> 00:02.000\nfirst\n\nalso --> here\nsecond".data
      exampleDoc (by decide)⟩

theorem enumFrom_getLast? {α : Type} : ∀ (n : Nat) (l : List α) (c : α),
    l.getLast? = some c → (List.enumFrom n l).getLast? = some (n + l.length - 1, c) := by
  intro n l
  induction l generalizing n with
  | nil => intro c hc; simp at hc
  | cons x xs ih =>
    intro c hc
    cases xs with
    | nil =>
      have hx : x = c := by simpa using hc
      subst hx
      simp [List.enumFrom]
    | cons y ys =>
      have h2 : (y :: ys).getLast? = some c := by
        rw [List.getLast?_cons_cons] at hc
        exact hc
      show ((n, x) :: List.enumFrom (n + 1) (y :: ys)).getLast? = _
      rw [getLast?_cons_ne _ (by simp [List.enumFrom])]
      rw [ih (n + 1) c h2]
      have harith : n + 1 + (y :: ys).length - 1 = n + (x :: y :: ys).length - 1 := by
        simp only [List.length_cons]
        omega
      rw [harith]

/-- C7: `renderVtt` ends immediately after the last payload line, with no
trailing blank line or newline, so its final cue is unterminated; the
converter still flushes the accumulated payload when the lines run out,
emitting it as the final block, numbered with the cue count. -/
theorem c7_unterminated_final_cue_flushed (d : VttDoc) (c : Cue)
    (h : validDoc d = true) (hlast : d.cues.getLast? = some c) :
    (blocksOf (vtt_to_srt (renderVtt d))).getLast?
      = some (natToChars d.cues.length :: cueLinesSrt c) := by
  have hne : d.cues ≠ [] := by
    intro he
    rw [he] at hlast
    simp at hlast
  rw [convert_valid h, blocksOf_renderSrt h]
  rw [List.getLast?_map]
  rw [show d.cues.enum = List.enumFrom 0 d.cues from rfl]
  rw [enumFrom_getLast? 0 d.cues c hlast]
  have hlen : 0 < d.cues.length := List.length_pos.mpr hne
  have harith : 0 + d.cues.length - 1 + 1 = d.cues.length := by omega
  simp only [Option.map_some']
  rw [harith]

theorem c7_unterminated_final_cue_flushed_witness :
    validDoc exampleDoc = true
    ∧ exampleDoc.cues.getLast?
        = some ⟨.short '0' '0' '0' '2' '5' '0' '0', .short '0' '0' '0' '5' '0' '0' '0',
            ["Second line".data]⟩
    ∧ (blocksOf (vtt_to_srt (renderVtt exampleDoc))).getLast?
        = some (natToChars exampleDoc.cues.length
            :: cueLinesSrt ⟨.short '0' '0' '0' '2' '5' '0' '0',
                .short '0' '0' '0' '5' '0' '0' '0', ["Second line".data]⟩) :=
  ⟨by decide, rfl,
    c7_unterminated_final_cue_flushed exampleDoc _ (by decide) rfl⟩

/-- C10: on input with no boundary line (no line containing `' --> '`
after header stripping and timestamp rewriting) the converter never emits
more than one block: if every line is blank it returns the empty string,
and otherwise it returns exactly one block, numbered 1, whose content is
the input's non-blank lines in order (joined and stripped). -/
theorem c10_no_boundary_single_block (s : List Char)
    (h : ∀ l ∈ splitLines (subTimestamps (stripHeader s)), hasSub arrowL l = false) :
    ((splitLines (subTimestamps (stripHeader s))).filter isNonBlank = [] →
        vtt_to_srt s = [])
    ∧ ((splitLines (subTimestamps (stripHeader s))).filter isNonBlank ≠ [] →
        vtt_to_srt s
          = natToChars 1 ++ '\n'
            :: pyStrip (joinNL
              ((splitLines (subTimestamps (stripHeader s))).filter isNonBlank))) := by
  have hloop := loop_no_arrow (splitLines (subTimestamps (stripHeader s))) 1 [] h
  constructor
  · intro hf
    show vtt_to_srt s = []
    unfold vtt_to_srt srt_blocks
    rw [hloop, hf]
    rfl
  · intro hf
    obtain ⟨l0, hl0F⟩ :=
      List.exists_mem_of_ne_nil _ hf
    have hnb : isNonBlank l0 = true := List.of_mem_filter hl0F
    obtain ⟨ch, hch, hchp⟩ := List.any_eq_true.mp hnb
    have hchs : pyIsSpace ch = false := by simpa using hchp
    have hmem : ch ∈ joinNL ((splitLines (subTimestamps (stripHeader s))).filter isNonBlank) :=
      mem_joinNL _ hl0F hch
    obtain ⟨b, hb, hbs⟩ := pyStrip_last_nonspace hmem hchs
    have hIne : pyStrip (joinNL
        ((splitLines (subTimestamps (stripHeader s))).filter isNonBlank)) ≠ [] := by
      intro he
      rw [he] at hb
      simp at hb
    have hnem : ¬((splitLines (subTimestamps (stripHeader s))).filter isNonBlank).isEmpty
        = true := by
      intro he
      exact hf (List.isEmpty_iff.mp he)
    unfold vtt_to_srt srt_blocks
    rw [hloop]
    rw [List.nil_append]
    rw [if_neg hnem]
    rw [show joinNL [mkBlock 1
        ((splitLines (subTimestamps (stripHeader s))).filter isNonBlank)]
      = mkBlock 1 ((splitLines (subTimestamps (stripHeader s))).filter isNonBlank)
      from rfl]
    rw [show mkBlock 1 ((splitLines (subTimestamps (stripHeader s))).filter isNonBlank)
      = (natToChars 1 ++ '\n' :: pyStrip (joinNL
          ((splitLines (subTimestamps (stripHeader s))).filter isNonBlank))) ++ ['\n']
      from by simp [mkBlock]]
    refine pyStrip_drop_last_nl
      (show (natToChars 1 ++ '\n' :: pyStrip (joinNL
          ((splitLines (subTimestamps (stripHeader s))).filter isNonBlank))).head?
        = some '1' from rfl) ?_ (by decide) hbs
    rw [List.getLast?_append_of_ne_nil _ (by simp)]
    rw [getLast?_cons_ne _ hIne]
    exact hb

theorem c10_no_boundary_single_block_witness :
    (∀ l ∈ splitLines (subTimestamps (stripHeader "hello\n\nworld".data)),
        hasSub arrowL l = false)
    ∧ (((splitLines (subTimestamps (stripHeader "hello\n\nworld".data))).filter
          isNonBlank = [] →
        vtt_to_srt "hello\n\nworld".data = [])
      ∧ ((splitLines (subTimestamps (stripHeader "hello\n\nworld".data))).filter
          isNonBlank ≠ [] →
        vtt_to_srt "hello\n\nworld".data
          = natToChars 1 ++ '\n'
            :: pyStrip (joinNL ((splitLines (subTimestamps
                (stripHeader "hello\n\nworld".data))).filter isNonBlank)))) :=
  ⟨by decide, c10_no_boundary_single_block "hello\n\nworld".data (by decide)⟩
